import Mathlib

/-!
Verification development for the crawl orchestration core of the
domain-chatAI repository (`backend/crawler/intelligent_crawler.py`,
`backend/crawler/discovery_strategies.py`, and the `ProductionCrawler`
subclass in `quick_test.py`).

The Python code is shallowly embedded:

* strings are Lean `String`s manipulated through their `List Char`
  representation; Python's `str.lower` is modelled by `pyLowerChar`
  (Python and this model agree on ASCII input, which is what every
  theorem below uses);
* `urllib.parse.urlparse` / `urlunparse` (as used by
  `ProductionCrawler._normalize_url` and the crawler helpers) are
  modelled for absolute URLs by `pyUrlparse` / `pyUrlunparse`,
  reproducing CPython's scheme / netloc / fragment / query / params
  splitting, including the `_splitparams` search for `';'` starting at
  the last `'/'`.  CPython's removal of tab/CR/LF characters is omitted:
  it is the identity on all URLs considered here;
* `asyncio.PriorityQueue` (a binary heap of `(priority, url)` tuples
  compared lexicographically, Python tuple order) is modelled by a list
  together with `popMin`, which removes a least element under the same
  lexicographic order; a heap pop returns exactly such an element, so
  the sequence of popped values coincides;
* the cooperative-concurrency worker pool is modelled as a small-step
  system: each worker runs atomically between `await` suspension points.
  The only suspension points that touch shared state are the page fetch
  inside `_crawl_page_complete` (all other awaits — `Queue.get` on a
  non-empty queue and `Queue.put` on an unbounded queue — do not
  suspend).  A schedule (list of worker indices) chooses which worker
  runs next; an index selects a worker to start or to receive its fetch
  result.  The fetch capability (playwright) is an external collaborator
  and is modelled by an oracle `String → FetchOutcome`;
* floats (the importance score) are modelled by exact rationals; the
  claims proved about the score (multiplicative structure, cap, range)
  are insensitive to IEEE rounding.

Fields of `CrawledPage` that no claim mentions (screenshots, media,
meta-data, content hash, timestamp) are elided from the page record.
-/

/-! ## Characters and strings: Python primitives -/

/-- Model of Python `str.lower` on one character.  CPython lowercases by
Unicode tables; this model lowercases ASCII `A`-`Z` and fixes everything
else, which agrees with CPython on ASCII input. -/
def pyLowerChar (c : Char) : Char :=
  if 65 ≤ c.toNat ∧ c.toNat ≤ 90 then Char.ofNat (c.toNat + 32) else c

/-- Model of Python `str.lower` on a string given as a character list. -/
def pyLower (s : List Char) : List Char := s.map pyLowerChar

/-- Does the text start with the pattern?  (`text.startswith(pat)`.) -/
def startsWithL : List Char → List Char → Bool
  | [], _ => true
  | _ :: _, [] => false
  | p :: ps, t :: ts => p == t && startsWithL ps ts

/-- Python substring containment `pat in text`. -/
def containsSub (pat : List Char) : List Char → Bool
  | [] => pat.isEmpty
  | t :: ts => startsWithL pat (t :: ts) || containsSub pat ts

/-- Split at the first character satisfying `p`: returns the part before
it and, when the character occurs, the part after it. -/
def splitOnFirst (p : Char → Bool) : List Char → List Char × Option (List Char)
  | [] => ([], none)
  | c :: cs =>
    if p c then ([], some cs)
    else
      let r := splitOnFirst p cs
      (c :: r.1, r.2)

/-- Split at the last character satisfying `p` (before it, after it). -/
def splitOnLast (p : Char → Bool) (l : List Char) :
    Option (List Char × List Char) :=
  match splitOnFirst p l.reverse with
  | (revAfter, some revBefore) => some (revBefore.reverse, revAfter.reverse)
  | (_, none) => none

/-- Python `s.rstrip('/')`: drop every trailing `'/'`. -/
def rstripSlash : List Char → List Char
  | [] => []
  | c :: cs =>
    let r := rstripSlash cs
    if r.isEmpty then (if c == '/' then [] else [c]) else c :: r

/-- Fuelled scanner for `removeAll`; the fuel is structurally decreasing
and always suffices when it starts at the text's length, because each
step consumes at least one character. -/
def removeAllGo (pat : List Char) : Nat → List Char → List Char
  | 0, l => l
  | _, [] => []
  | fuel + 1, t :: ts =>
    if pat ≠ [] ∧ startsWithL pat (t :: ts) then
      removeAllGo pat fuel ((t :: ts).drop pat.length)
    else
      t :: removeAllGo pat fuel ts

/-- Python `s.replace(pat, "")` for a non-empty pattern: delete every
(non-overlapping, left-to-right) occurrence of `pat`. -/
def removeAll (pat l : List Char) : List Char := removeAllGo pat l.length l

/-- Decimal digit character. -/
def digitChar (d : Nat) : Char := Char.ofNat (48 + d)

/-- Decimal digits of a number, with structurally decreasing fuel. -/
def natCharsAux : Nat → Nat → List Char
  | 0, _ => []
  | fuel + 1, n =>
    if n < 10 then [digitChar n]
    else natCharsAux fuel (n / 10) ++ [digitChar (n % 10)]

/-- Decimal representation of a natural number. -/
def natChars (n : Nat) : List Char := natCharsAux (n + 1) n

/-- Parse a non-empty all-digit character list as a natural number. -/
def charsToNatGo : Nat → List Char → Option Nat
  | acc, [] => some acc
  | acc, c :: cs =>
    if c.isDigit then charsToNatGo (acc * 10 + (c.toNat - 48)) cs else none

/-- Decimal parser used by the example fetch oracles. -/
def charsToNat : List Char → Option Nat
  | [] => none
  | c :: cs => charsToNatGo 0 (c :: cs)

/-! ## CPython `urllib.parse` model (absolute URLs) -/

/-- The six components returned by `urllib.parse.urlparse`. -/
structure UrlParts where
  scheme : List Char
  netloc : List Char
  path : List Char
  params : List Char
  query : List Char
  fragment : List Char
deriving DecidableEq, Repr

/-- CPython `scheme_chars`: ASCII letters, digits, `+`, `-`, `.`. -/
def schemeChar (c : Char) : Bool :=
  c.isAlpha || c.isDigit || c == '+' || c == '-' || c == '.'

/-- Scheme splitting step of CPython `urlsplit`: take everything before
the first `':'` as the scheme when it is a non-empty run of scheme
characters starting with a letter (the scheme is lowercased by
`urlsplit` itself); otherwise there is no scheme. -/
def splitScheme (u : List Char) : List Char × List Char :=
  match splitOnFirst (· == ':') u with
  | (pre, some rest) =>
    if !pre.isEmpty && (pre.headD ' ').isAlpha then
      if pre.all schemeChar then (pre.map pyLowerChar, rest) else ([], u)
    else ([], u)
  | (_, none) => ([], u)

/-- Netloc delimiter characters for `_splitnetloc`. -/
def netlocDelim (c : Char) : Bool := c == '/' || c == '?' || c == '#'

/-- Netloc splitting step of CPython `urlsplit`: when the remainder
starts with `//`, the netloc runs to the next `/`, `?` or `#`. -/
def splitNetloc (u : List Char) : List Char × List Char :=
  if startsWithL ['/', '/'] u then
    let rest := u.drop 2
    (rest.takeWhile (fun c => !netlocDelim c),
     rest.dropWhile (fun c => !netlocDelim c))
  else ([], u)

/-- CPython `urlparse._splitparams`: split `path` into path and params
at the first `';'` occurring in the last path segment. -/
def splitParams (path : List Char) : List Char × List Char :=
  if path.contains '/' then
    match splitOnLast (· == '/') path with
    | some (pre, lastSeg) =>
      match splitOnFirst (· == ';') lastSeg with
      | (a, some b) => (pre ++ '/' :: a, b)
      | (_, none) => (path, [])
    | none => (path, [])
  else
    match splitOnFirst (· == ';') path with
    | (a, some b) => (a, b)
    | (_, none) => (path, [])

/-- The schemes of CPython `uses_params` (params are split only for
these; note that the empty scheme is included). -/
def usesParams : List (List Char) :=
  [[], "ftp".data, "hdl".data, "prospero".data, "http".data, "imap".data,
   "https".data, "shttp".data, "rtsp".data, "rtspu".data, "sip".data,
   "sips".data, "mms".data, "sftp".data, "tel".data]

/-- Model of `urllib.parse.urlparse` (with `allow_fragments=True`). -/
def pyUrlparse (u : List Char) : UrlParts :=
  let s1 := splitScheme u
  let s2 := splitNetloc s1.2
  let s3 := splitOnFirst (· == '#') s2.2
  let s4 := splitOnFirst (· == '?') s3.1
  if usesParams.contains s1.1 && s4.1.contains ';' then
    let s5 := splitParams s4.1
    ⟨s1.1, s2.1, s5.1, s5.2, s4.2.getD [], s3.2.getD []⟩
  else
    ⟨s1.1, s2.1, s4.1, [], s4.2.getD [], s3.2.getD []⟩

/-- Model of `urllib.parse.urlunparse` (via `urlunsplit`). -/
def pyUrlunparse (p : UrlParts) : List Char :=
  let url := if !p.params.isEmpty then p.path ++ ';' :: p.params else p.path
  let url :=
    if !p.netloc.isEmpty || startsWithL ['/', '/'] url then
      let url' := if !url.isEmpty && !(url.headD ' ' == '/') then '/' :: url else url
      '/' :: '/' :: (p.netloc ++ url')
    else url
  let url := if !p.scheme.isEmpty then p.scheme ++ ':' :: url else url
  let url := if !p.query.isEmpty then url ++ '?' :: p.query else url
  if !p.fragment.isEmpty then url ++ '#' :: p.fragment else url

/-- Model of `ProductionCrawler._normalize_url` (`quick_test.py`):
parse the lowercased URL, strip trailing slashes from the path (bare
root becomes `/`), drop the fragment, re-assemble keeping params and
query. -/
def normalizeUrl (s : String) : String :=
  let parts := pyUrlparse (pyLower s.data)
  let path := rstripSlash parts.path
  let path := if path.isEmpty then ['/'] else path
  String.mk (pyUrlunparse { parts with path := path, fragment := [] })

/-! ## Crawler configuration and page records -/

/-- Per-run configuration of `IntelligentCrawler.__init__`:
`domain` is the constructor argument with `https://` and `http://`
deleted (Python `str.replace`), `max_pages` the page budget. -/
structure Crawler where
  domain : String
  maxPages : Nat
deriving DecidableEq, Repr

/-- Constructor model: `IntelligentCrawler(domain, max_pages)`. -/
def mkCrawler (domain : String) (maxPages : Nat) : Crawler :=
  ⟨String.mk (removeAll "http://".data (removeAll "https://".data domain.data)),
   maxPages⟩

/-- The crawler's `self.base_url = f"https://{self.domain}"`. -/
def Crawler.baseUrl (c : Crawler) : String := "https://" ++ c.domain

/-- One JSON-LD block of a page's structured data: either a JSON object
whose `@type` value is the given string (absent `@type` reads as `""`),
or a non-object value, which `_determine_page_type` skips. -/
inductive JsonLdItem
  | obj (attype : String)
  | other
deriving DecidableEq, Repr

/-- Structured data extracted by `_extract_structured_data`: the dict
holds the key `json_ld` iff the JSON-LD list is non-empty, and likewise
for the Open Graph and microdata entries; its Python truthiness is
therefore the disjunction of the three. -/
structure StructuredData where
  jsonLd : List JsonLdItem
  hasOpenGraph : Bool
  hasMicrodata : Bool
deriving DecidableEq, Repr

/-- Python truthiness of the `structured_data` dict. -/
def StructuredData.present (sd : StructuredData) : Bool :=
  !sd.jsonLd.isEmpty || sd.hasOpenGraph || sd.hasMicrodata

/-- One form record from `_extract_forms` (inputs elided; only the
list's truthiness is consumed by the scorer). -/
structure FormData where
  action : String
  method : String
deriving DecidableEq, Repr

/-- A fetched page (`CrawledPage` dataclass); screenshots, media,
meta-data, content hash and timestamp are elided (no claim uses them). -/
structure CrawledPage where
  url : String
  title : String
  html : String
  links : List String
  forms : List FormData
  structuredData : StructuredData
  pageType : String
  importanceScore : ℚ
deriving DecidableEq, Repr

/-! ## Priority classifier, page classifier, importance scorer -/

/-- High-value keyword list of `_calculate_url_priority`. -/
def importantPatterns : List String :=
  ["product", "service", "pricing", "about", "contact"]

/-- Reference keyword list of `_calculate_url_priority`. -/
def docPatterns : List String := ["doc", "help", "faq", "support"]

/-- Is some pattern of the list a substring of the text? -/
def anyPatternIn (pats : List String) (text : List Char) : Bool :=
  pats.any (fun p => containsSub p.data text)

/-- Model of `IntelligentCrawler._calculate_url_priority`: tier 0 for
the base URL (with or without trailing slash), otherwise the first
keyword list whose member occurs as a substring of the lowercased URL
decides the tier; default 5. -/
def calcUrlPriority (c : Crawler) (url : String) : Nat :=
  if url = c.baseUrl ∨ url = c.baseUrl ++ "/" then 0
  else
    match importantPatterns.find?
        (fun p => containsSub p.data (pyLower url.data)) with
    | some _ => 1
    | none =>
      match docPatterns.find?
          (fun p => containsSub p.data (pyLower url.data)) with
      | some _ => 2
      | none =>
        if containsSub "blog".data (pyLower url.data) ||
           containsSub "news".data (pyLower url.data) then 3
        else 5

/-- Model of `_is_same_domain`: compare `urlparse(url).netloc` and the
crawler domain after deleting every occurrence of `www.` from both. -/
def isSameDomain (c : Crawler) (url : String) : Bool :=
  removeAll "www.".data (pyUrlparse url.data).netloc ==
    removeAll "www.".data c.domain.data

/-- File extensions `_should_crawl` skips. -/
def skipExtensions : List String :=
  [".pdf", ".jpg", ".jpeg", ".png", ".gif", ".zip", ".mp4", ".mp3",
   ".doc", ".docx", ".xls", ".xlsx"]

/-- Python `s.endswith(t)`. -/
def endsWithL (suffixPat text : List Char) : Bool :=
  startsWithL suffixPat.reverse text.reverse

/-- Pseudo-URL patterns `_should_crawl` skips (substring match on the
lowercased URL, as in the source). -/
def skipPatterns : List String := ["javascript:", "mailto:", "tel:", "#"]

/-- Model of `IntelligentCrawler._should_crawl`: reject already-visited
URLs, foreign domains, skip-listed extensions of the lowercased path,
and pseudo-URL patterns. -/
def shouldCrawl (c : Crawler) (visited : List String) (url : String) : Bool :=
  if visited.contains url then false
  else if !isSameDomain c url then false
  else
    let path := pyLower (pyUrlparse url.data).path
    if skipExtensions.any (fun e => endsWithL e.data path) then false
    else if skipPatterns.any (fun p => containsSub p.data (pyLower url.data)) then
      false
    else true

/-- One URL pattern of `self.url_patterns`: all are literal substrings
except `/p/\d+`, which needs `/p/` followed by at least one digit. -/
inductive UrlPat
  | lit (s : String)
  | pDigits
deriving DecidableEq, Repr

/-- Scan for an occurrence of `/p/` followed by a digit, the meaning of
`re.search` for the raw pattern `/p/` + digits. -/
def scanPDigits : List Char → Bool
  | [] => false
  | c :: cs =>
    (c == '/' && startsWithL ['p', '/'] cs &&
      ((cs.drop 2).headD ' ').isDigit) || scanPDigits cs

/-- Model of `re.search(pattern, url)` for the patterns in
`self.url_patterns`. -/
def matchUrlPat (pat : UrlPat) (u : List Char) : Bool :=
  match pat with
  | .lit s => containsSub s.data u
  | .pDigits => scanPDigits u

/-- `self.url_patterns` in insertion (iteration) order. -/
def urlPatterns : List (String × List UrlPat) :=
  [("product", [.lit "/product/", .lit "/item/", .pDigits]),
   ("category", [.lit "/category/", .lit "/collections/", .lit "/c/"]),
   ("blog", [.lit "/blog/", .lit "/news/", .lit "/articles/"]),
   ("about", [.lit "/about", .lit "/team", .lit "/company"]),
   ("contact", [.lit "/contact", .lit "/support"]),
   ("legal", [.lit "/privacy", .lit "/terms", .lit "/legal"]),
   ("pricing", [.lit "/pricing", .lit "/plans", .lit "/subscribe"])]

/-- JSON-LD fallback of `_determine_page_type`: the first object item
whose lowercased `@type` contains one of the schema keywords decides. -/
def jsonLdType : List JsonLdItem → Option String
  | [] => none
  | .other :: rest => jsonLdType rest
  | .obj t :: rest =>
    let tl := pyLower t.data
    if containsSub "product".data tl then some "product"
    else if containsSub "article".data tl ||
            containsSub "blogposting".data tl then some "blog"
    else if containsSub "organization".data tl ||
            containsSub "localbusiness".data tl then some "about"
    else jsonLdType rest

/-- Model of `IntelligentCrawler._determine_page_type`: URL patterns in
dict order first, then the JSON-LD fallback, default `general`. -/
def determinePageType (url : String) (sd : StructuredData) : String :=
  let ul := pyLower url.data
  match urlPatterns.find? (fun pt => pt.2.any (fun p => matchUrlPat p ul)) with
  | some pt => pt.1
  | none =>
    if !sd.jsonLd.isEmpty then
      match jsonLdType sd.jsonLd with
      | some t => t
      | none => "general"
    else "general"

/-- Model of `IntelligentCrawler._calculate_importance`, floats modelled
by exact rationals: base 1.0, homepage ×3.0, commerce page type ×2.0 or
about/service ×1.5, structured data ×1.2, forms ×1.1, capped at 5.0. -/
def calcImportance (c : Crawler) (p : CrawledPage) : ℚ :=
  let score : ℚ := 1
  let score :=
    if p.url = c.baseUrl ∨ p.url = c.baseUrl ++ "/" then score * 3 else score
  let score :=
    if p.pageType ∈ ["product", "pricing", "contact"] then score * 2
    else if p.pageType ∈ ["about", "service"] then score * (3 / 2)
    else score
  let score := if p.structuredData.present then score * (6 / 5) else score
  let score := if !p.forms.isEmpty then score * (11 / 10) else score
  min score 5

/-! ## The priority queue (`asyncio.PriorityQueue` of `(priority, url)`) -/

/-- Python string comparison `s < t`: strict lexicographic order by
code point. -/
def charsLt : List Char → List Char → Bool
  | [], [] => false
  | [], _ :: _ => true
  | _ :: _, [] => false
  | a :: as, b :: bs => a.toNat < b.toNat || (a == b && charsLt as bs)

/-- Python tuple order `(p1, u1) <= (p2, u2)` on `(int, str)` pairs
(the negation of strict `>`; string comparison lexicographic by code
point, as in Python). -/
def entryLe (a b : Nat × String) : Bool :=
  a.1 < b.1 || (a.1 == b.1 && !charsLt b.2.data a.2.data)

/-- Remove a least entry under Python tuple order — the value returned
by `heapq.heappop`, hence by `asyncio.PriorityQueue.get` on a non-empty
queue. -/
def popMin : List (Nat × String) → Option ((Nat × String) × List (Nat × String))
  | [] => none
  | e :: q =>
    match popMin q with
    | none => some (e, [])
    | some (m, rest) =>
      if entryLe e m then some (e, q) else some (m, e :: rest)

/-- Serve the whole queue in `get` order. -/
def drainGo : Nat → List (Nat × String) → List (Nat × String)
  | 0, _ => []
  | fuel + 1, q =>
    match popMin q with
    | none => []
    | some (m, rest) => m :: drainGo fuel rest

/-- The order in which successive `get` calls serve a queue's entries. -/
def drainOrder (q : List (Nat × String)) : List (Nat × String) :=
  drainGo q.length q

/-! ## Worker-pool small-step semantics -/

/-- Result of one `page.goto` + extraction attempt, decided by the
external fetch capability. -/
structure PagePayload where
  title : String
  html : String
  links : List String
  forms : List FormData
  structuredData : StructuredData
deriving DecidableEq, Repr

/-- Outcome of invoking the fetch capability on a URL:
`timeout` (playwright `TimeoutError`), `exn` (any other exception during
navigation or extraction), `noResponse` (`goto` returned a falsy
response), or a response with an HTTP status and extracted payload. -/
inductive FetchOutcome
  | timeout
  | exn
  | noResponse
  | resp (status : Nat) (payload : PagePayload)
deriving DecidableEq, Repr

/-- Build the `CrawledPage` record as `_crawl_page_complete` does on the
success path (page type and importance computed post-extraction). -/
def buildPage (c : Crawler) (url : String) (pl : PagePayload) : CrawledPage :=
  let pt := determinePageType url pl.structuredData
  let base : CrawledPage :=
    ⟨url, pl.title, pl.html, pl.links, pl.forms, pl.structuredData, pt, 1⟩
  { base with importanceScore := calcImportance c base }

/-- Model of `IntelligentCrawler._crawl_page_complete`.  The whole body
sits in `try ... except Exception: return None`, so a playwright
timeout (a plain `Exception`, not `asyncio.TimeoutError`) and every
extraction error yield `None`, exactly like a falsy response or an HTTP
status of 400 and above. -/
def crawlPageComplete (c : Crawler) (url : String) (o : FetchOutcome) :
    Option CrawledPage :=
  match o with
  | .timeout => none
  | .exn => none
  | .noResponse => none
  | .resp status payload =>
    if 400 ≤ status then none else some (buildPage c url payload)

/-- Status of one worker task: created but not yet scheduled, suspended
in a page fetch, or exited from its loop. -/
inductive WStatus
  | pending
  | fetching (url : String)
  | done
deriving DecidableEq, Repr

/-- The shared crawl state of one run: the `to_visit` queue, the
`visited_urls` set (as a duplicate-free list), the `pages` result list,
the `failed_urls` dict (association list) and every worker's status. -/
structure CrawlState where
  queue : List (Nat × String)
  visited : List String
  pages : List CrawledPage
  failed : List (String × String)
  workers : List WStatus
deriving DecidableEq, Repr

/-- Set insertion for `visited_urls.add`. -/
def insertSet (u : String) (v : List String) : List String :=
  if v.contains u then v else u :: v

/-- The claim loop at the top of `_crawler_worker`: while the queue is
non-empty and `len(visited) < max_pages`, pop the least entry and skip
it if already visited.  Returns the remaining queue and the claimed URL
(`none` = the loop exits).  This whole loop runs without suspension, so
it is a single atomic step. -/
def claimLoopGo (c : Crawler) (visited : List String) :
    Nat → List (Nat × String) → List (Nat × String) × Option String
  | 0, q => (q, none)
  | fuel + 1, q =>
    if c.maxPages ≤ visited.length then (q, none)
    else
      match popMin q with
      | none => (q, none)
      | some (e, rest) =>
        if visited.contains e.2 then claimLoopGo c visited fuel rest
        else (rest, some e.2)

/-- The claim loop, fuelled by the queue length: each recursive call
pops one entry, so the fuel always suffices (at fuel 0 the queue is
empty and the loop exits, the same result the guard gives). -/
def claimLoop (c : Crawler) (visited : List String)
    (q : List (Nat × String)) : List (Nat × String) × Option String :=
  claimLoopGo c visited q.length q

/-- Offer each outbound link in order: `put((priority, link))` when the
link is unvisited and `_should_crawl` accepts it (both checked against
the already-updated visited set, with no suspension in between). -/
def offerLinks (c : Crawler) (visited : List String)
    (q : List (Nat × String)) (links : List String) : List (Nat × String) :=
  links.foldl
    (fun acc link =>
      if !visited.contains link && shouldCrawl c visited link then
        acc ++ [(calcUrlPriority c link, link)]
      else acc)
    q

/-- Deliver a fetch result for `url` to the shared state: on a
successful extraction append the page, add the URL to `visited` and
offer its links; otherwise (`None` from `_crawl_page_complete`) leave
every shared structure untouched.  The dead `except` handlers of the
worker never run (no exception escapes `_crawl_page_complete`), so
`failed` is never written. -/
def applyComplete (c : Crawler) (oracle : String → FetchOutcome)
    (st : CrawlState) (url : String) : CrawlState :=
  match crawlPageComplete c url (oracle url) with
  | none => st
  | some pg =>
    let visited' := insertSet url st.visited
    { st with
      pages := st.pages ++ [pg]
      visited := visited'
      queue := offerLinks c visited' st.queue pg.links }

/-- Run worker `w`'s claim loop from the current state and record its
new status (fetching a URL, or done). -/
def runIdle (c : Crawler) (st : CrawlState) (w : Nat) : CrawlState :=
  match claimLoop c st.visited st.queue with
  | (q', none) => { st with queue := q', workers := st.workers.set w .done }
  | (q', some u) =>
    { st with queue := q', workers := st.workers.set w (.fetching u) }

/-- One scheduler step: run worker `w` until its next suspension point.
A pending worker enters its loop; a fetching worker receives its fetch
outcome, handles it, and continues the loop; a finished worker (or an
index out of range) does nothing. -/
def step (c : Crawler) (oracle : String → FetchOutcome)
    (st : CrawlState) (w : Nat) : CrawlState :=
  match st.workers.get? w with
  | none => st
  | some .done => st
  | some .pending => runIdle c st w
  | some (.fetching u) => runIdle c (applyComplete c oracle st u) w

/-- Run a whole schedule of worker steps. -/
def runSched (c : Crawler) (oracle : String → FetchOutcome)
    (st : CrawlState) (sched : List Nat) : CrawlState :=
  sched.foldl (step c oracle) st

/-- Worker-pool size of `_crawl_phase`:
`range(min(5, self.max_pages // 100 + 1))`. -/
def numWorkers (maxPages : Nat) : Nat := min 5 (maxPages / 100 + 1)

/-- Stable insertion by priority (equal priorities keep their relative
order), modelling Python's stable `list.sort(key=lambda x: x[0])`. -/
def insertByPriority (e : Nat × String) :
    List (Nat × String) → List (Nat × String)
  | [] => [e]
  | f :: fs => if f.1 ≤ e.1 then f :: insertByPriority e fs else e :: f :: fs

/-- Model of `_prioritize_urls`: keep the discovered URLs accepted by
`_should_crawl` (against the still-empty visited set), pair each with
its priority, and stable-sort by priority. -/
def seedQueue (c : Crawler) (urls : List String) : List (Nat × String) :=
  ((urls.filter (fun u => shouldCrawl c [] u)).map
      (fun u => (calcUrlPriority c u, u))).foldl
    (fun acc e => insertByPriority e acc) []

/-- Initial shared state: seeded queue, empty visited / pages / failed,
`w` freshly created workers. -/
def initState (w : Nat) (q : List (Nat × String)) : CrawlState :=
  ⟨q, [], [], [], List.replicate w .pending⟩

/-- The crawl phase of a run (`start` after discovery): seed the queue
from the discovered URLs, spawn `numWorkers` workers, and let the
scheduler interleave them. -/
def crawlPhase (c : Crawler) (urls : List String)
    (oracle : String → FetchOutcome) (sched : List Nat) : CrawlState :=
  runSched c oracle (initState (numWorkers c.maxPages) (seedQueue c urls)) sched

/-- The run-exhausted message of `run_production_pipeline`
(`quick_test.py`): raised exactly when the crawl produced zero pages. -/
def runExhaustedMsg : String := "No pages were successfully crawled"

/-- Model of the production pipeline's interaction with the crawler:
`pages = await crawler.start()` followed by
`if not pages: raise Exception("No pages were successfully crawled")`.
Every per-URL failure has already been absorbed inside the workers, so
the caller sees either the result or that single run-level error. -/
def runPipeline (c : Crawler) (urls : List String)
    (oracle : String → FetchOutcome) (sched : List Nat) :
    Except String (List CrawledPage × List (String × String)) :=
  if (crawlPhase c urls oracle sched).pages.isEmpty then .error runExhaustedMsg
  else .ok ((crawlPhase c urls oracle sched).pages,
            (crawlPhase c urls oracle sched).failed)

/-! ## Definitions following the specification's words

These definitions transcribe what the spec (and the claims derived from
it) say, to be compared against the definitions transcribed from the
source.  They are used only in refinement-style theorems. -/

/-- The worker count the spec asserts: `clamp(3, 10, pageBudget/5)` —
at least 3, at most 10, `pageBudget/5` in between. -/
def specClampWorkers (pageBudget : Nat) : Nat :=
  max 3 (min 10 (pageBudget / 5))

/-- The priority classifier as the claim words it: keyword matching
restricted to the URL's path (first matching rule wins). -/
def specClassifyPath (c : Crawler) (url : String) : Nat :=
  if url = c.baseUrl ∨ url = c.baseUrl ++ "/" then 0
  else
    let path := pyLower (pyUrlparse url.data).path
    if anyPatternIn importantPatterns path then 1
    else if anyPatternIn docPatterns path then 2
    else if containsSub "blog".data path || containsSub "news".data path then 3
    else 5

/-- The priority classifier cascade with the amended matching rule:
keyword occurrence anywhere in the lowercased URL. -/
def specClassifyFull (c : Crawler) (url : String) : Nat :=
  if url = c.baseUrl ∨ url = c.baseUrl ++ "/" then 0
  else if ∃ p ∈ importantPatterns, containsSub p.data (pyLower url.data) = true
    then 1
  else if ∃ p ∈ docPatterns, containsSub p.data (pyLower url.data) = true
    then 2
  else if containsSub "blog".data (pyLower url.data) = true ∨
          containsSub "news".data (pyLower url.data) = true then 3
  else 5

/-- The importance score as the spec words it: one product of factors,
capped at 5. -/
def specScore (c : Crawler) (p : CrawledPage) : ℚ :=
  min (1 * (if p.url = c.baseUrl ∨ p.url = c.baseUrl ++ "/" then 3 else 1)
      * (if p.pageType ∈ ["product", "pricing", "contact"] then 2 else 1)
      * (if p.pageType ∈ ["about", "service"] then 3 / 2 else 1)
      * (if p.structuredData.present then 6 / 5 else 1)
      * (if !p.forms.isEmpty then 11 / 10 else 1)) 5

/-! ## Concrete runs used by counterexamples and witnesses -/

/-- A crawler for `x.co` with a page budget of 100 (the smallest budget
the orchestrator serves with two concurrent workers). -/
def exCrawler : Crawler := mkCrawler "x.co" 100

/-- A crawler with a small budget (single worker). -/
def smallCrawler : Crawler := mkCrawler "x.co" 10

/-- A successful page payload with the given outbound links. -/
def mkPayload (links : List String) : PagePayload :=
  ⟨"t", "<html>", links, [], ⟨[], false, false⟩⟩

/-- Two seed URLs produced by discovery. -/
def dupSeeds : List String := ["https://x.co/s1", "https://x.co/s2"]

/-- Fetch oracle for the duplicate-visit run: both seed pages link to
the same third URL, which itself has no links. -/
def dupOracle (u : String) : FetchOutcome :=
  if u = "https://x.co/s1" ∨ u = "https://x.co/s2" then
    .resp 200 (mkPayload ["https://x.co/v"])
  else .resp 200 (mkPayload [])

/-- Schedule of the duplicate-visit run: both workers start, then their
fetch results arrive alternately. -/
def dupSched : List Nat := [0, 1, 0, 1, 0, 1]

/-- Fetch oracle for the budget-overshoot run: each page links to the
next URL in a numbered chain, so every link is offered twice (once per
worker) and both copies are claimed before either fetch lands. -/
def chainOracle (u : String) : FetchOutcome :=
  if u = "https://x.co/s1" ∨ u = "https://x.co/s2" then
    .resp 200 (mkPayload [String.mk ("https://x.co/".data ++ natChars 0)])
  else
    match charsToNat (u.data.drop 13) with
    | some n =>
      .resp 200 (mkPayload [String.mk ("https://x.co/".data ++ natChars (n + 1))])
    | none => .resp 200 (mkPayload [])

/-- Schedule of the budget-overshoot run: the two workers alternate
until the budget stops them. -/
def chainSched : List Nat := (List.replicate 100 [0, 1]).flatten

/-- Fetch oracle where every page fetch times out. -/
def timeoutOracle : String → FetchOutcome := fun _ => .timeout

/-- Fetch oracle answering 404 to everything. -/
def notFoundOracle : String → FetchOutcome := fun _ => .resp 404 (mkPayload [])

/-- A state with one worker suspended in a fetch (for the silent-drop
witness). -/
def fetchingState : CrawlState :=
  ⟨[(5, "https://x.co/b")], [], [], [], [.fetching "https://x.co/a"]⟩

/-! ## Structured absolute URLs (used by the normalization theorems) -/

/-- Printable ASCII character — on these Python's `str.lower` and the
model `pyLowerChar` agree. -/
def urlChar (c : Char) : Prop := 32 < c.toNat ∧ c.toNat < 127

/-- An absolute URL given by components:
`scheme://netloc path [?query] [#fragment]`. -/
structure AbsUrl where
  scheme : List Char
  netloc : List Char
  path : List Char
  query : Option (List Char)
  fragment : Option (List Char)

/-- Render an optional component behind its delimiter. -/
def optPart (c : Char) : Option (List Char) → List Char
  | none => []
  | some x => c :: x

/-- Render the URL as a character string. -/
def AbsUrl.render (u : AbsUrl) : List Char :=
  u.scheme ++ ':' :: '/' :: '/' :: u.netloc ++ u.path ++
    optPart '?' u.query ++ optPart '#' u.fragment

/-- Syntactic well-formedness of an absolute URL: non-empty alphabetic
scheme, non-empty netloc free of `/?#`, path empty or starting with `/`
and free of `?#` and `;` (the semicolon-free restriction is what the
amended idempotence claim needs), query free of `#`; all components
printable ASCII. -/
def AbsUrl.WF (u : AbsUrl) : Prop :=
  u.scheme ≠ [] ∧ (∀ c ∈ u.scheme, c.isAlpha = true) ∧
  u.netloc ≠ [] ∧ (∀ c ∈ u.netloc, urlChar c ∧ netlocDelim c = false) ∧
  (u.path = [] ∨ u.path.headD ' ' = '/') ∧
  (∀ c ∈ u.path, urlChar c ∧ c ≠ '?' ∧ c ≠ '#' ∧ c ≠ ';') ∧
  (∀ c ∈ u.query.getD [], urlChar c ∧ c ≠ '#')

/-- The effect of `normalizeUrl` on a well-formed absolute URL, at the
level of components: lowercase everything, strip trailing slashes from
the path (bare root becomes `/`), drop the fragment, and keep the query
iff it is non-empty. -/
def normAbs (u : AbsUrl) : AbsUrl :=
  let pa := rstripSlash (pyLower u.path)
  let q := pyLower (u.query.getD [])
  ⟨pyLower u.scheme, pyLower u.netloc,
   if pa.isEmpty then ['/'] else pa,
   if q.isEmpty then none else some q,
   none⟩

/-- A concrete well-formed absolute URL used as the idempotence
witness. -/
def exGoodUrl : AbsUrl :=
  ⟨"HTTP".data, "Example.COM".data, "/About/".data,
   some "Q=1".data, some "frag".data⟩

/-! ## Run invariants (used by the single-worker theorems) -/

/-- Data invariant of the shared crawl state: every result page's URL
is visited, result URLs are duplicate-free, pages and visited grow in
lock step, the failure map is empty (its writers are dead code), and
the visited set respects the page budget. -/
def InvData (c : Crawler) (st : CrawlState) : Prop :=
  (∀ p ∈ st.pages, p.url ∈ st.visited) ∧
  (st.pages.map (fun p => p.url)).Nodup ∧
  st.pages.length = st.visited.length ∧
  st.failed = [] ∧
  st.visited.length ≤ c.maxPages

/-- Full invariant of a single-worker run: the data invariant, plus —
when the lone worker is suspended in a fetch — that its claimed URL is
unvisited and the budget not yet reached. -/
def Inv1 (c : Crawler) (st : CrawlState) : Prop :=
  InvData c st ∧
  (∀ u, st.workers = [WStatus.fetching u] →
    u ∉ st.visited ∧ st.visited.length < c.maxPages) ∧
  (∃ ws, st.workers = [ws])

/-! ## Lemmas and claim theorems -/

/-- Popping strictly shrinks the queue. -/
theorem popMin_length_lt :
    ∀ {q : List (Nat × String)} {e : Nat × String} {rest : List (Nat × String)},
      popMin q = some (e, rest) → rest.length < q.length := by
  intro q
  induction q with
  | nil => intro e rest h; simp [popMin] at h
  | cons a q ih =>
    intro e rest h
    simp only [popMin] at h
    cases hq : popMin q with
    | none =>
      rw [hq] at h
      cases h
      simp
    | some mr =>
      obtain ⟨m, r⟩ := mr
      rw [hq] at h
      dsimp only at h
      cases hle : entryLe a m
      · rw [hle] at h
        simp only [Bool.false_eq_true, if_false] at h
        cases h
        have := ih hq
        simp only [List.length_cons]
        omega
      · rw [hle] at h
        simp only [if_true] at h
        cases h
        simp

/-- C4, counterexample: with the default page budget 1000 the source
spawns `min(5, 1000 // 100 + 1) = 5` workers, not the claimed
`clamp(3, 10, 1000 / 5) = 10`. -/
theorem c4_worker_pool_cx :
    numWorkers 1000 = 5 ∧ specClampWorkers 1000 = 10 ∧
      numWorkers 1000 ≠ specClampWorkers 1000 := by
  refine ⟨rfl, rfl, ?_⟩
  decide

/-- The claim loop touches only the queue and the claiming worker. -/
theorem runIdle_pages (c : Crawler) (st : CrawlState) (w : Nat) :
    (runIdle c st w).pages = st.pages := by
  unfold runIdle
  cases hcl : claimLoop c st.visited st.queue with
  | mk q' r => cases r <;> rfl

/-- The claim loop leaves the visited set unchanged. -/
theorem runIdle_visited (c : Crawler) (st : CrawlState) (w : Nat) :
    (runIdle c st w).visited = st.visited := by
  unfold runIdle
  cases hcl : claimLoop c st.visited st.queue with
  | mk q' r => cases r <;> rfl

/-- The claim loop leaves the failure map unchanged. -/
theorem runIdle_failed (c : Crawler) (st : CrawlState) (w : Nat) :
    (runIdle c st w).failed = st.failed := by
  unfold runIdle
  cases hcl : claimLoop c st.visited st.queue with
  | mk q' r => cases r <;> rfl

/-- The claim loop keeps the number of worker slots. -/
theorem runIdle_workers_length (c : Crawler) (st : CrawlState) (w : Nat) :
    (runIdle c st w).workers.length = st.workers.length := by
  unfold runIdle
  cases hcl : claimLoop c st.visited st.queue with
  | mk q' r => cases r <;> simp

/-- Handling a fetch result never touches the worker list. -/
theorem applyComplete_workers (c : Crawler) (o : String → FetchOutcome)
    (st : CrawlState) (u : String) :
    (applyComplete c o st u).workers = st.workers := by
  unfold applyComplete
  cases crawlPageComplete c u (o u) <;> rfl

/-- One scheduler step never changes the number of worker slots. -/
theorem step_workers_length (c : Crawler) (o : String → FetchOutcome)
    (st : CrawlState) (w : Nat) :
    (step c o st w).workers.length = st.workers.length := by
  unfold step
  cases hw : st.workers.get? w with
  | none => rfl
  | some ws =>
    cases ws with
    | pending => exact runIdle_workers_length c st w
    | done => rfl
    | fetching u =>
      rw [runIdle_workers_length, applyComplete_workers]

/-- A whole run never changes the number of worker slots. -/
theorem runSched_workers_length (c : Crawler) (o : String → FetchOutcome)
    (sched : List Nat) :
    ∀ st : CrawlState, (runSched c o st sched).workers.length
      = st.workers.length := by
  induction sched with
  | nil => intro st; rfl
  | cons w ws ih =>
    intro st
    show (runSched c o (step c o st w) ws).workers.length = _
    rw [ih, step_workers_length]

/-- C4 (amended): throughout every run the orchestrator holds
`min(5, pageBudget // 100 + 1)` worker slots — between 1 and 5 workers,
never the spec's `clamp(3, 10, pageBudget/5)`; that clamp expression
appears in the source only as the `active_workers` figure reported to
the job-progress store. -/
theorem c4_worker_pool_amended :
    ∀ (c : Crawler) (urls : List String) (o : String → FetchOutcome)
      (sched : List Nat),
      (crawlPhase c urls o sched).workers.length = min 5 (c.maxPages / 100 + 1) ∧
      1 ≤ (crawlPhase c urls o sched).workers.length ∧
      (crawlPhase c urls o sched).workers.length ≤ 5 := by
  intro c urls o sched
  unfold crawlPhase
  rw [runSched_workers_length]
  unfold initState numWorkers
  refine ⟨by simp, ?_, ?_⟩ <;> simp only [List.length_replicate] <;> omega

/-- C7, counterexample: for `https://x.co/page?from=contact` (base
`https://x.co`) the source returns tier 1 — the keyword `contact`
occurs in the query string — while the claimed path/segment matching
yields the default tier 5. -/
theorem c7_classifier_cx :
    calcUrlPriority exCrawler "https://x.co/page?from=contact" = 1 ∧
    specClassifyPath exCrawler "https://x.co/page?from=contact" = 5 ∧
    calcUrlPriority exCrawler "https://x.co/page?from=contact" ≠
      specClassifyPath exCrawler "https://x.co/page?from=contact" := by
  refine ⟨rfl, rfl, ?_⟩
  intro h
  rw [show calcUrlPriority exCrawler "https://x.co/page?from=contact" = 1 from rfl,
      show specClassifyPath exCrawler "https://x.co/page?from=contact" = 5 from rfl] at h
  omega

/-- C7 (amended): the tier is decided by the first matching rule in
order, where a keyword matches when it occurs as a substring anywhere in
the lowercased URL (host and query string included, not only the path);
tier 0 for the base URL with or without trailing slash; the function is
pure and total with values in {0, 1, 2, 3, 5}. -/
theorem c7_classifier_amended :
    ∀ (c : Crawler) (url : String),
      calcUrlPriority c url = specClassifyFull c url ∧
      calcUrlPriority c url ∈ [0, 1, 2, 3, 5] := by
  intro c url
  have heq : calcUrlPriority c url = specClassifyFull c url := by
    by_cases h0 : url = c.baseUrl ∨ url = c.baseUrl ++ "/"
    · simp [calcUrlPriority, specClassifyFull, h0]
    · simp only [calcUrlPriority, specClassifyFull, if_neg h0]
      cases h1 : importantPatterns.find?
          (fun p => containsSub p.data (pyLower url.data)) with
      | some p =>
        have hex : ∃ p ∈ importantPatterns,
            containsSub p.data (pyLower url.data) = true := by
          refine ⟨p, List.mem_of_find?_eq_some h1, ?_⟩
          have hs := List.find?_some h1
          simpa using hs
        rw [if_pos hex]
      | none =>
        have hnex : ¬ ∃ p ∈ importantPatterns,
            containsSub p.data (pyLower url.data) = true := by
          rintro ⟨p, hp, hc⟩
          have := List.find?_eq_none.mp h1 p hp
          simp [hc] at this
        rw [if_neg hnex]
        cases h2 : docPatterns.find?
            (fun p => containsSub p.data (pyLower url.data)) with
        | some p =>
          have hex : ∃ p ∈ docPatterns,
              containsSub p.data (pyLower url.data) = true := by
            refine ⟨p, List.mem_of_find?_eq_some h2, ?_⟩
            have hs := List.find?_some h2
            simpa using hs
          rw [if_pos hex]
        | none =>
          have hnex2 : ¬ ∃ p ∈ docPatterns,
              containsSub p.data (pyLower url.data) = true := by
            rintro ⟨p, hp, hc⟩
            have := List.find?_eq_none.mp h2 p hp
            simp [hc] at this
          rw [if_neg hnex2]
          by_cases h3 : containsSub "blog".data (pyLower url.data) = true ∨
              containsSub "news".data (pyLower url.data) = true
          · rw [if_pos h3]
            rcases h3 with h3 | h3 <;> simp [h3]
          · rw [if_neg h3]
            push_neg at h3
            simp only [Bool.not_eq_true] at h3
            simp [h3.1, h3.2]
  refine ⟨heq, ?_⟩
  rw [heq]
  unfold specClassifyFull
  split_ifs <;> simp

/-- C8 (confirmed): the importance score is exactly the capped product
of the claimed factors, is deterministic, and lies in [0, 5]. -/
theorem c8_importance_score :
    ∀ (c : Crawler) (p : CrawledPage),
      calcImportance c p = specScore c p ∧
      0 ≤ calcImportance c p ∧ calcImportance c p ≤ 5 := by
  intro c p
  have hdisj : ¬ (p.pageType ∈ ["product", "pricing", "contact"] ∧
      p.pageType ∈ ["about", "service"]) := by
    rintro ⟨h1, h2⟩
    simp only [List.mem_cons, List.not_mem_nil, or_false] at h1 h2
    rcases h1 with h1 | h1 | h1 <;> rcases h2 with h2 | h2 <;>
      rw [h1] at h2 <;> simp at h2
  have heq : calcImportance c p = specScore c p := by
    unfold calcImportance specScore
    split_ifs <;> first
      | (exfalso; apply hdisj; constructor <;> assumption)
      | norm_num
  refine ⟨heq, ?_, ?_⟩
  · rw [heq]
    unfold specScore
    split_ifs <;> norm_num
  · rw [heq]
    unfold specScore
    exact min_le_right _ _

/-- C3 (code bug): when every page fetch times out, the failure map
stays empty — `_crawl_page_complete` catches the playwright timeout in
its blanket `except Exception` and returns `None`, so the worker's
`except asyncio.TimeoutError` handler (whose body would record
`failed_urls[url] = "timeout"`) never runs.  At this failing input the
run completes with 0 pages and 0 failure entries, where the claim (and
the worker's own dead handler) demand one `"timeout"` entry per
attempted URL. -/
theorem c3_timeout_recorded_bug :
    crawlPageComplete smallCrawler "https://x.co/s1" .timeout = none ∧
    (crawlPhase smallCrawler ["https://x.co/s1"] timeoutOracle [0, 0]).pages = [] ∧
    (crawlPhase smallCrawler ["https://x.co/s1"] timeoutOracle [0, 0]).failed = [] ∧
    (crawlPhase smallCrawler ["https://x.co/s1"] timeoutOracle [0, 0]).workers
      = [.done] := by
  exact ⟨rfl, rfl, rfl, rfl⟩

/-- C5 (confirmed): the production pipeline turns a completed run into
a returned result; the only run-level error is the run-exhausted one,
raised exactly when zero pages were fetched, and an ordinary result
carries exactly the run's page list and failure map — no per-URL
failure ever escalates to the caller. -/
theorem c5_run_error_surface :
    ∀ (c : Crawler) (urls : List String) (o : String → FetchOutcome)
      (sched : List Nat),
      (runPipeline c urls o sched = .error runExhaustedMsg ↔
        (crawlPhase c urls o sched).pages = []) ∧
      ((crawlPhase c urls o sched).pages ≠ [] →
        runPipeline c urls o sched =
          .ok ((crawlPhase c urls o sched).pages,
               (crawlPhase c urls o sched).failed)) ∧
      (∀ e, runPipeline c urls o sched = .error e → e = runExhaustedMsg) := by
  intro c urls o sched
  unfold runPipeline
  by_cases h : (crawlPhase c urls o sched).pages = []
  · rw [h]
    simp
  · have hne : (crawlPhase c urls o sched).pages.isEmpty = false := by
      simpa [List.isEmpty_iff] using h
    rw [hne]
    simp [h]

/-- C5 witness: a run in which every fetch times out completes with zero
pages, and the pipeline surfaces exactly the run-exhausted error. -/
theorem c5_run_error_surface_witness :
    runPipeline smallCrawler ["https://x.co/s1"] timeoutOracle [0, 0]
      = .error runExhaustedMsg :=
  (c5_run_error_surface smallCrawler ["https://x.co/s1"] timeoutOracle
      [0, 0]).1.mpr rfl

/-- C10 (confirmed): a fetch that yields an HTTP status of 400 or more,
a falsy response, a timeout under the blanket handler, or any
extraction exception makes `_crawl_page_complete` return `None`; the
worker then appends no page, marks nothing visited and records no
failure — the URL silently disappears from the run's output and stays
eligible for a later fetch. -/
theorem c10_silent_drop :
    ∀ (c : Crawler) (o : String → FetchOutcome) (st : CrawlState)
      (u : String) (w : Nat),
      st.workers.get? w = some (.fetching u) →
      crawlPageComplete c u (o u) = none →
      (∀ status payload, 400 ≤ status →
        crawlPageComplete c u (.resp status payload) = none) ∧
      crawlPageComplete c u .exn = none ∧
      crawlPageComplete c u .noResponse = none ∧
      (step c o st w).pages = st.pages ∧
      (step c o st w).visited = st.visited ∧
      (step c o st w).failed = st.failed := by
  intro c o st u w hw hnone
  have hac : applyComplete c o st u = st := by
    unfold applyComplete
    rw [hnone]
  have hstep : step c o st w = runIdle c st w := by
    unfold step
    rw [hw]
    dsimp only
    rw [hac]
  refine ⟨?_, rfl, rfl, ?_, ?_, ?_⟩
  · intro status payload hs
    simp only [crawlPageComplete]
    rw [if_pos hs]
  · rw [hstep]
    exact runIdle_pages c st w
  · rw [hstep]
    exact runIdle_visited c st w
  · rw [hstep]
    exact runIdle_failed c st w

/-- C10 witness: a 404 response for a claimed URL leaves pages, visited
set and failure map untouched. -/
theorem c10_silent_drop_witness :
    (step exCrawler notFoundOracle fetchingState 0).pages = fetchingState.pages ∧
    (step exCrawler notFoundOracle fetchingState 0).visited
      = fetchingState.visited ∧
    (step exCrawler notFoundOracle fetchingState 0).failed
      = fetchingState.failed :=
  (c10_silent_drop exCrawler notFoundOracle fetchingState "https://x.co/a" 0
      rfl rfl).2.2.2

/-- C1, counterexample: a complete two-worker run (budget 100, so the
source spawns two workers) in which both seed pages link to the same
URL; both workers pop a copy of it before either fetch lands, and the
run's result list contains that URL twice. -/
theorem c1_no_duplicate_visits_cx :
    ((crawlPhase exCrawler dupSeeds dupOracle dupSched).pages.map
        (fun p => p.url))
      = ["https://x.co/s1", "https://x.co/s2", "https://x.co/v",
         "https://x.co/v"] ∧
    ((crawlPhase exCrawler dupSeeds dupOracle dupSched).pages.map
        (fun p => p.url)).count "https://x.co/v" = 2 ∧
    ¬ ((crawlPhase exCrawler dupSeeds dupOracle dupSched).pages.map
        (fun p => p.url)).Nodup ∧
    (crawlPhase exCrawler dupSeeds dupOracle dupSched).workers
      = [.done, .done] ∧
    (crawlPhase exCrawler dupSeeds dupOracle dupSched).queue = [] := by
  refine ⟨rfl, rfl, ?_, rfl, rfl⟩
  intro hnd
  have h1 := List.nodup_iff_count_le_one.mp hnd "https://x.co/v"
  have h2 : ((crawlPhase exCrawler dupSeeds dupOracle dupSched).pages.map
      (fun p => p.url)).count "https://x.co/v" = 2 := rfl
  omega

/-- C6, counterexample: two frontier entries of the same priority tier
are served in lexicographic URL order, not in insertion order — the
entry inserted second (`.../a`) is served first. -/
theorem c6_frontier_fifo_cx :
    drainOrder [(5, "https://x.co/b"), (5, "https://x.co/a")]
      = [(5, "https://x.co/a"), (5, "https://x.co/b")] ∧
    drainOrder [(5, "https://x.co/b"), (5, "https://x.co/a")]
      ≠ [(5, "https://x.co/b"), (5, "https://x.co/a")] := by
  refine ⟨rfl, ?_⟩
  intro h
  rw [show drainOrder [(5, "https://x.co/b"), (5, "https://x.co/a")]
      = [(5, "https://x.co/a"), (5, "https://x.co/b")] from rfl] at h
  have := congrArg (fun l => (l.headD (0, "")).2) h
  simp at this

set_option maxRecDepth 200000 in
set_option maxHeartbeats 4000000 in
/-- C2, counterexample: a complete two-worker run with budget 100
returns 198 pages, exceeding maxPages + workerCount = 102.  Duplicate
fetches append pages without growing the visited set, so the loop guard
`len(visited) < max_pages` keeps admitting iterations. -/
theorem c2_budget_cx :
    (crawlPhase exCrawler dupSeeds chainOracle chainSched).pages.length = 198 ∧
    exCrawler.maxPages + numWorkers exCrawler.maxPages = 102 ∧
    ¬ ((crawlPhase exCrawler dupSeeds chainOracle chainSched).pages.length
        ≤ exCrawler.maxPages + numWorkers exCrawler.maxPages) ∧
    (crawlPhase exCrawler dupSeeds chainOracle chainSched).workers
      = [.done, .done] := by
  have h : (crawlPhase exCrawler dupSeeds chainOracle chainSched).pages.length
      = 198 := by rfl
  refine ⟨h, rfl, ?_, by rfl⟩
  rw [h]
  decide

/-- The string order is irreflexive. -/
theorem charsLt_irrefl : ∀ l : List Char, charsLt l l = false := by
  intro l
  induction l with
  | nil => rfl
  | cons a as ih => simp [charsLt, ih]

/-- The string order is transitive. -/
theorem charsLt_trans :
    ∀ (a b c : List Char), charsLt a b = true → charsLt b c = true →
      charsLt a c = true := by
  intro a
  induction a with
  | nil =>
    intro b c hab hbc
    cases b with
    | nil => simp [charsLt] at hab
    | cons y ys =>
      cases c with
      | nil => simp [charsLt] at hbc
      | cons z zs => rfl
  | cons x xs ih =>
    intro b c hab hbc
    cases b with
    | nil => simp [charsLt] at hab
    | cons y ys =>
      cases c with
      | nil => simp [charsLt] at hbc
      | cons z zs =>
        simp only [charsLt, Bool.or_eq_true, Bool.and_eq_true,
          decide_eq_true_eq, beq_iff_eq] at hab hbc ⊢
        rcases hab with h1 | ⟨h1, h1'⟩
        · rcases hbc with h2 | ⟨h2, h2'⟩
          · left; omega
          · subst h2; left; exact h1
        · subst h1
          rcases hbc with h2 | ⟨h2, h2'⟩
          · left; exact h2
          · subst h2
            right
            exact ⟨rfl, ih _ _ h1' h2'⟩

/-- The string order is asymmetric. -/
theorem charsLt_asymm {a b : List Char} (h : charsLt a b = true) :
    charsLt b a = false := by
  cases hba : charsLt b a
  · rfl
  · have := charsLt_trans a b a h hba
    rw [charsLt_irrefl] at this
    cases this

/-- Two strings neither of which precedes the other are equal. -/
theorem charsLt_connex :
    ∀ (a b : List Char), charsLt a b = false → charsLt b a = false →
      a = b := by
  intro a
  induction a with
  | nil =>
    intro b hab _
    cases b with
    | nil => rfl
    | cons y ys => simp [charsLt] at hab
  | cons x xs ih =>
    intro b hab hba
    cases b with
    | nil => simp [charsLt] at hba
    | cons y ys =>
      simp only [charsLt, Bool.or_eq_false_iff, Bool.and_eq_false_iff,
        decide_eq_false_iff_not, beq_eq_false_iff_ne, ne_eq] at hab hba
      have hxy : x = y := by
        have h1 := hab.1
        have h2 := hba.1
        have : x.toNat = y.toNat := by omega
        have hofx := Char.ofNat_toNat x
        have hofy := Char.ofNat_toNat y
        rw [← hofx, ← hofy, this]
      subst hxy
      rcases hab.2 with h | h
      · exact absurd rfl h
      · rcases hba.2 with h' | h'
        · exact absurd rfl h'
        · rw [ih ys h h']

/-- A string neither precedes the other or they are equal. -/
theorem charsLt_le_cases {a b : List Char} (h : charsLt b a = false) :
    charsLt a b = true ∨ a = b := by
  cases hab : charsLt a b
  · exact Or.inr (charsLt_connex a b hab h)
  · exact Or.inl rfl

/-- The queue order is reflexive. -/
theorem entryLe_refl (a : Nat × String) : entryLe a a = true := by
  simp [entryLe, charsLt_irrefl]

/-- The queue order is total. -/
theorem entryLe_total (a b : Nat × String) :
    entryLe a b = true ∨ entryLe b a = true := by
  unfold entryLe
  rcases Nat.lt_trichotomy a.1 b.1 with h | h | h
  · left; simp [h]
  · cases hba : charsLt b.2.data a.2.data
    · left; simp [h, hba]
    · right
      have := charsLt_asymm hba
      simp [h, this]
  · right; simp [h]

/-- The queue order is transitive. -/
theorem entryLe_trans (a b c : Nat × String) :
    entryLe a b = true → entryLe b c = true → entryLe a c = true := by
  unfold entryLe
  simp only [Bool.or_eq_true, Bool.and_eq_true, decide_eq_true_eq,
    beq_iff_eq, Bool.not_eq_true']
  rintro (h1 | ⟨h1, h1'⟩) (h2 | ⟨h2, h2'⟩)
  · left; omega
  · left; omega
  · left; omega
  · right
    refine ⟨by omega, ?_⟩
    cases hca : charsLt c.2.data a.2.data
    · rfl
    · exfalso
      rcases charsLt_le_cases h1' with hlt | heq
      · have := charsLt_trans _ _ _ hca hlt
        rw [h2'] at this
        cases this
      · rw [heq] at hca
        rw [hca] at h2'
        cases h2'

/-- A non-empty queue always pops something. -/
theorem popMin_cons_some (a : Nat × String) (q : List (Nat × String)) :
    (popMin (a :: q)).isSome = true := by
  simp only [popMin]
  cases popMin q with
  | none => rfl
  | some mr =>
    obtain ⟨m, r⟩ := mr
    dsimp only
    split <;> rfl

/-- Popping returns a permutation split of the queue. -/
theorem popMin_perm :
    ∀ {q : List (Nat × String)} {e : Nat × String}
      {rest : List (Nat × String)},
      popMin q = some (e, rest) → q.Perm (e :: rest) := by
  intro q
  induction q with
  | nil => intro e rest h; simp [popMin] at h
  | cons a q ih =>
    intro e rest h
    simp only [popMin] at h
    cases hq : popMin q with
    | none =>
      rw [hq] at h
      cases h
      have hq' : q = [] := by
        cases q with
        | nil => rfl
        | cons b bs =>
          have := popMin_cons_some b bs
          rw [hq] at this
          cases this
      subst hq'
      exact List.Perm.refl _
    | some mr =>
      obtain ⟨m, r⟩ := mr
      rw [hq] at h
      dsimp only at h
      cases hle : entryLe a m
      · rw [hle] at h
        simp only [Bool.false_eq_true, if_false] at h
        cases h
        exact ((ih hq).cons a).trans (List.Perm.swap _ _ _)
      · rw [hle] at h
        simp only [if_true] at h
        cases h
        exact List.Perm.refl _

/-- The popped entry is minimal for the queue order. -/
theorem popMin_min :
    ∀ {q : List (Nat × String)} {e : Nat × String}
      {rest : List (Nat × String)},
      popMin q = some (e, rest) → ∀ x ∈ q, entryLe e x = true := by
  intro q
  induction q with
  | nil => intro e rest h; simp [popMin] at h
  | cons a q ih =>
    intro e rest h x hx
    simp only [popMin] at h
    cases hq : popMin q with
    | none =>
      rw [hq] at h
      cases h
      have hq' : q = [] := by
        cases q with
        | nil => rfl
        | cons b bs =>
          have := popMin_cons_some b bs
          rw [hq] at this
          cases this
      subst hq'
      simp only [List.mem_singleton] at hx
      subst hx
      exact entryLe_refl _
    | some mr =>
      obtain ⟨m, r⟩ := mr
      rw [hq] at h
      dsimp only at h
      cases hle : entryLe a m
      · rw [hle] at h
        simp only [Bool.false_eq_true, if_false] at h
        cases h
        rcases List.mem_cons.mp hx with hxa | hx'
        · rw [hxa]
          rcases entryLe_total a e with h' | h'
          · rw [hle] at h'
            cases h'
          · exact h'
        · exact ih hq x hx'
      · rw [hle] at h
        simp only [if_true] at h
        cases h
        rcases List.mem_cons.mp hx with hxa | hx'
        · rw [hxa]
          exact entryLe_refl _
        · exact entryLe_trans _ _ _ hle (ih hq x hx')

/-- Draining with enough fuel is a permutation of the queue. -/
theorem drainGo_perm :
    ∀ (fuel : Nat) (q : List (Nat × String)), q.length ≤ fuel →
      (drainGo fuel q).Perm q := by
  intro fuel
  induction fuel with
  | zero =>
    intro q hq
    have : q = [] := by
      cases q with
      | nil => rfl
      | cons a as => simp at hq
    subst this
    exact List.Perm.refl _
  | succ n ih =>
    intro q hq
    simp only [drainGo]
    cases hp : popMin q with
    | none =>
      have : q = [] := by
        cases q with
        | nil => rfl
        | cons b bs =>
          have := popMin_cons_some b bs
          rw [hp] at this
          cases this
      subst this
      exact List.Perm.refl _
    | some mr =>
      obtain ⟨m, rest⟩ := mr
      have hlen := popMin_length_lt hp
      have hrec := ih rest (by omega)
      exact (hrec.cons m).trans (popMin_perm hp).symm

/-- Draining with enough fuel lists the entries in non-decreasing
queue order. -/
theorem drainGo_sorted :
    ∀ (fuel : Nat) (q : List (Nat × String)), q.length ≤ fuel →
      (drainGo fuel q).Pairwise (fun x y => entryLe x y = true) := by
  intro fuel
  induction fuel with
  | zero => intro q hq; exact List.Pairwise.nil
  | succ n ih =>
    intro q hq
    simp only [drainGo]
    cases hp : popMin q with
    | none => exact List.Pairwise.nil
    | some mr =>
      obtain ⟨m, rest⟩ := mr
      have hlen := popMin_length_lt hp
      refine List.Pairwise.cons ?_ (ih rest (by omega))
      intro y hy
      have hyrest : y ∈ rest := ((drainGo_perm n rest (by omega)).mem_iff).mp hy
      have hyq : y ∈ q := ((popMin_perm hp).mem_iff).mpr (List.mem_cons_of_mem _ hyrest)
      exact popMin_min hp y hyq

/-- C6 (amended): the frontier always serves a least remaining entry
under Python tuple order — lowest priority tier first, lexicographic
URL order within a tier (not insertion order) — so the service order is
a sorted permutation of the queue contents, deterministic for a single
worker. -/
theorem c6_frontier_order_amended :
    ∀ q : List (Nat × String),
      (drainOrder q).Perm q ∧
      (drainOrder q).Pairwise (fun x y => entryLe x y = true) :=
  fun q => ⟨drainGo_perm q.length q le_rfl, drainGo_sorted q.length q le_rfl⟩

/-- Membership after a visited-set insertion. -/
theorem mem_insertSet {u x : String} {v : List String} :
    x ∈ insertSet u v ↔ x = u ∨ x ∈ v := by
  unfold insertSet
  cases hc : v.contains u
  · simp
  · rw [if_pos rfl]
    have hu : u ∈ v := by simpa [List.elem_eq_mem] using hc
    constructor
    · exact fun h => Or.inr h
    · rintro (rfl | h)
      · exact hu
      · exact h

/-- Inserting a fresh URL grows the visited set by one. -/
theorem length_insertSet_of_not_mem {u : String} {v : List String}
    (h : u ∉ v) : (insertSet u v).length = v.length + 1 := by
  unfold insertSet
  have hc : v.contains u = false := by
    simp [List.elem_eq_mem, h]
  rw [hc]
  simp

/-- A URL claimed by the loop is unvisited and under budget. -/
theorem claimLoopGo_claim (c : Crawler) (v : List String) :
    ∀ (fuel : Nat) (q q' : List (Nat × String)) (u : String),
      claimLoopGo c v fuel q = (q', some u) →
      u ∉ v ∧ v.length < c.maxPages := by
  intro fuel
  induction fuel with
  | zero =>
    intro q q' u h
    have := congrArg Prod.snd h
    simp [claimLoopGo] at this
  | succ n ih =>
    intro q q' u h
    simp only [claimLoopGo] at h
    by_cases hb : c.maxPages ≤ v.length
    · rw [if_pos hb] at h
      have := congrArg Prod.snd h
      simp at this
    · rw [if_neg hb] at h
      cases hp : popMin q with
      | none =>
        rw [hp] at h
        have := congrArg Prod.snd h
        simp at this
      | some er =>
        obtain ⟨e, rest⟩ := er
        rw [hp] at h
        dsimp only at h
        cases hv : v.contains e.2
        · rw [hv] at h
          simp only [Bool.false_eq_true, if_false] at h
          cases h
          refine ⟨?_, by omega⟩
          intro hmem
          have hcv : v.contains e.2 = true := by
            simp [List.elem_eq_mem, hmem]
          rw [hv] at hcv
          cases hcv
        · rw [hv] at h
          simp only [if_true] at h
          exact ih rest q' u h

/-- The claim loop only pops: the remaining queue is a sub-collection
of the original one. -/
theorem claimLoopGo_queue_sub (c : Crawler) (v : List String) :
    ∀ (fuel : Nat) (q : List (Nat × String)),
      ∀ e ∈ (claimLoopGo c v fuel q).1, e ∈ q := by
  intro fuel
  induction fuel with
  | zero => intro q e h; simpa [claimLoopGo] using h
  | succ n ih =>
    intro q e h
    simp only [claimLoopGo] at h
    by_cases hb : c.maxPages ≤ v.length
    · rw [if_pos hb] at h
      exact h
    · rw [if_neg hb] at h
      cases hp : popMin q with
      | none =>
        rw [hp] at h
        exact h
      | some er =>
        obtain ⟨m, rest⟩ := er
        rw [hp] at h
        dsimp only at h
        have hrest : ∀ x ∈ rest, x ∈ q := by
          intro x hx
          exact ((popMin_perm hp).mem_iff).mpr (List.mem_cons_of_mem _ hx)
        cases hv : v.contains m.2
        · rw [hv] at h
          simp only [Bool.false_eq_true, if_false] at h
          exact hrest e h
        · rw [hv] at h
          simp only [if_true] at h
          exact hrest e (ih rest e h)

/-- After the claim loop, the single worker is either done or fetching a
fresh, under-budget URL. -/
theorem runIdle_workers_single (c : Crawler) (st : CrawlState) (ws : WStatus)
    (hw : st.workers = [ws]) :
    (runIdle c st 0).workers = [WStatus.done] ∨
    ∃ u, (runIdle c st 0).workers = [WStatus.fetching u] ∧
      u ∉ st.visited ∧ st.visited.length < c.maxPages := by
  unfold runIdle claimLoop
  cases hcl : claimLoopGo c st.visited st.queue.length st.queue with
  | mk q' r =>
    cases r with
    | none =>
      left
      simp [hw]
    | some u =>
      right
      exact ⟨u, by simp [hw],
        claimLoopGo_claim c st.visited st.queue.length st.queue q' u hcl⟩

/-- Whatever the claim loop leaves in the queue was already queued. -/
theorem runIdle_queue_sub (c : Crawler) (st : CrawlState) (w : Nat) :
    ∀ e ∈ (runIdle c st w).queue, e ∈ st.queue := by
  have hsub := claimLoopGo_queue_sub c st.visited st.queue.length st.queue
  unfold runIdle claimLoop
  cases hcl : claimLoopGo c st.visited st.queue.length st.queue with
  | mk q' r =>
    rw [hcl] at hsub
    cases r with
    | none => exact fun e he => hsub e he
    | some u => exact fun e he => hsub e he

/-- Everything `offer` adds to the queue is unvisited at offer time. -/
theorem offerLinks_mem (c : Crawler) (v : List String) :
    ∀ (links : List String) (q : List (Nat × String)) (e : Nat × String),
      e ∈ offerLinks c v q links → e ∈ q ∨ e.2 ∉ v := by
  intro links
  induction links with
  | nil => intro q e h; exact Or.inl h
  | cons l ls ih =>
    intro q e h
    rw [show offerLinks c v q (l :: ls)
        = offerLinks c v (if !v.contains l && shouldCrawl c v l then
            q ++ [(calcUrlPriority c l, l)] else q) ls from rfl] at h
    rcases ih _ e h with h1 | h1
    · by_cases hc : (!v.contains l && shouldCrawl c v l) = true
      · rw [if_pos hc] at h1
        rcases List.mem_append.mp h1 with h2 | h2
        · exact Or.inl h2
        · simp only [List.mem_singleton] at h2
          subst h2
          right
          have hcl : v.contains l = false := by
            have h3 := (Bool.and_eq_true _ _).mp hc
            simpa using h3.1
          intro hmem
          have hcv : v.contains l = true := by
            simp [List.elem_eq_mem, hmem]
          rw [hcl] at hcv
          cases hcv
      · rw [if_neg hc] at h1
        exact Or.inl h1
    · exact Or.inr h1

/-- Handling a fetch result enqueues only URLs that were unvisited
before the step. -/
theorem applyComplete_queue_fresh (c : Crawler) (o : String → FetchOutcome)
    (st : CrawlState) (u : String) :
    ∀ e ∈ (applyComplete c o st u).queue, e ∈ st.queue ∨ e.2 ∉ st.visited := by
  unfold applyComplete
  cases hcc : crawlPageComplete c u (o u) with
  | none => exact fun e he => Or.inl he
  | some pg =>
    intro e he
    dsimp only at he
    rcases offerLinks_mem c (insertSet u st.visited) pg.links st.queue e he
      with h | h
    · exact Or.inl h
    · right
      intro hmem
      exact h (mem_insertSet.mpr (Or.inr hmem))

/-- No scheduler step re-enqueues a visited URL: every queue entry after
a step was already queued or had an unvisited URL before the step. -/
theorem step_enqueue_unvisited (c : Crawler) (o : String → FetchOutcome) :
    ∀ (st : CrawlState) (w : Nat) (e : Nat × String),
      e ∈ (step c o st w).queue → e ∈ st.queue ∨ e.2 ∉ st.visited := by
  intro st w e
  unfold step
  cases hw : st.workers.get? w with
  | none => exact fun he => Or.inl he
  | some ws =>
    cases ws with
    | done => exact fun he => Or.inl he
    | pending => exact fun he => Or.inl (runIdle_queue_sub c st w e he)
    | fetching u =>
      intro he
      have h2 := runIdle_queue_sub c (applyComplete c o st u) w e he
      exact applyComplete_queue_fresh c o st u e h2

/-- The claim loop preserves the data invariant. -/
theorem invData_runIdle (c : Crawler) (st : CrawlState) (w : Nat)
    (h : InvData c st) : InvData c (runIdle c st w) := by
  unfold InvData at h ⊢
  rw [runIdle_pages, runIdle_visited, runIdle_failed]
  exact h

/-- A successful page is built with the claimed URL. -/
theorem crawlPageComplete_url (c : Crawler) (u : String) (o : FetchOutcome)
    {pg : CrawledPage} (h : crawlPageComplete c u o = some pg) : pg.url = u := by
  cases o with
  | timeout => simp [crawlPageComplete] at h
  | exn => simp [crawlPageComplete] at h
  | noResponse => simp [crawlPageComplete] at h
  | resp status payload =>
    simp only [crawlPageComplete] at h
    by_cases hs : 400 ≤ status
    · rw [if_pos hs] at h
      cases h
    · rw [if_neg hs] at h
      cases h
      rfl

/-- Handling a fetch result of a fresh, under-budget URL preserves the
data invariant. -/
theorem invData_applyComplete (c : Crawler) (o : String → FetchOutcome)
    (st : CrawlState) (u : String) (h : InvData c st)
    (hu : u ∉ st.visited) (hlt : st.visited.length < c.maxPages) :
    InvData c (applyComplete c o st u) := by
  obtain ⟨h1, h2, h3, h4, h5⟩ := h
  unfold applyComplete
  cases hcc : crawlPageComplete c u (o u) with
  | none => exact ⟨h1, h2, h3, h4, h5⟩
  | some pg =>
    have hpgurl : pg.url = u := crawlPageComplete_url c u (o u) hcc
    dsimp only
    refine ⟨?_, ?_, ?_, h4, ?_⟩
    · intro p hp
      rcases List.mem_append.mp hp with hp | hp
      · exact mem_insertSet.mpr (Or.inr (h1 p hp))
      · simp only [List.mem_singleton] at hp
        subst hp
        rw [hpgurl]
        exact mem_insertSet.mpr (Or.inl rfl)
    · rw [List.map_append, List.nodup_append]
      refine ⟨h2, by simp, ?_⟩
      intro x hx hx'
      simp only [List.map_cons, List.map_nil, List.mem_singleton] at hx'
      subst hx'
      rcases List.mem_map.mp hx with ⟨p, hp, hpu⟩
      apply hu
      rw [← hpgurl, ← hpu]
      exact h1 p hp
    · rw [List.length_append, length_insertSet_of_not_mem hu]
      simp only [List.length_singleton]
      omega
    · rw [length_insertSet_of_not_mem hu]
      omega

/-- One scheduler step preserves the single-worker invariant. -/
theorem inv1_step (c : Crawler) (o : String → FetchOutcome)
    (st : CrawlState) (w : Nat) (h : Inv1 c st) : Inv1 c (step c o st w) := by
  obtain ⟨hd, hfetch, ⟨ws, hws⟩⟩ := h
  unfold step
  cases hw : st.workers.get? w with
  | none => exact ⟨hd, hfetch, ws, hws⟩
  | some ws' =>
    have hw0 : w = 0 := by
      rw [hws] at hw
      cases w with
      | zero => rfl
      | succ n => simp at hw
    subst hw0
    have hwseq : ws' = ws := by
      rw [hws] at hw
      simpa using hw.symm
    subst hwseq
    cases ws' with
    | done => exact ⟨hd, hfetch, .done, hws⟩
    | pending =>
      dsimp only
      rcases runIdle_workers_single c st .pending hws with hdone | ⟨u, hu, hfr, hblt⟩
      · refine ⟨invData_runIdle c st 0 hd, ?_, ⟨.done, hdone⟩⟩
        intro u' heq
        rw [hdone] at heq
        simp at heq
      · refine ⟨invData_runIdle c st 0 hd, ?_, ⟨.fetching u, hu⟩⟩
        intro u' heq
        rw [hu] at heq
        simp only [List.cons.injEq, and_true, WStatus.fetching.injEq] at heq
        subst heq
        rw [runIdle_visited]
        exact ⟨hfr, hblt⟩
    | fetching u =>
      dsimp only
      obtain ⟨hfr, hblt⟩ := hfetch u hws
      have hd2 := invData_applyComplete c o st u hd hfr hblt
      have hw2 : (applyComplete c o st u).workers = [WStatus.fetching u] := by
        rw [applyComplete_workers, hws]
      rcases runIdle_workers_single c (applyComplete c o st u) (.fetching u) hw2
        with hdone | ⟨u2, hu2, hfr2, hblt2⟩
      · refine ⟨invData_runIdle c _ 0 hd2, ?_, ⟨.done, hdone⟩⟩
        intro u' heq
        rw [hdone] at heq
        simp at heq
      · refine ⟨invData_runIdle c _ 0 hd2, ?_, ⟨.fetching u2, hu2⟩⟩
        intro u' heq
        rw [hu2] at heq
        simp only [List.cons.injEq, and_true, WStatus.fetching.injEq] at heq
        subst heq
        rw [runIdle_visited]
        exact ⟨hfr2, hblt2⟩

/-- A whole schedule preserves the single-worker invariant. -/
theorem inv1_runSched (c : Crawler) (o : String → FetchOutcome)
    (sched : List Nat) :
    ∀ st : CrawlState, Inv1 c st → Inv1 c (runSched c o st sched) := by
  induction sched with
  | nil => exact fun st h => h
  | cons w ws ih => exact fun st h => ih _ (inv1_step c o st w h)

/-- The freshly seeded single-worker state satisfies the invariant. -/
theorem inv1_init (c : Crawler) (q : List (Nat × String)) :
    Inv1 c (initState 1 q) := by
  refine ⟨⟨?_, ?_, rfl, rfl, ?_⟩, ?_, ⟨.pending, rfl⟩⟩
  · intro p hp
    cases hp
  · simp [initState]
  · simp [initState]
  · intro u heq
    simp [initState, List.replicate] at heq

/-- Budgets under 100 get exactly one worker. -/
theorem numWorkers_small {m : Nat} (h : m < 100) : numWorkers m = 1 := by
  unfold numWorkers
  have hdiv : m / 100 = 0 := Nat.div_eq_of_lt h
  rw [hdiv]
  omega

/-- Every run with a budget under 100 pages keeps the single-worker
invariant at the end. -/
theorem crawlPhase_inv1 (c : Crawler) (urls : List String)
    (o : String → FetchOutcome) (sched : List Nat)
    (hm : c.maxPages < 100) : Inv1 c (crawlPhase c urls o sched) := by
  unfold crawlPhase
  rw [numWorkers_small hm]
  exact inv1_runSched c o sched _ (inv1_init c _)

/-- Handling a fetch result never writes the failure map (the dead
`except` handlers of the worker are its only writers). -/
theorem applyComplete_failed (c : Crawler) (o : String → FetchOutcome)
    (st : CrawlState) (u : String) :
    (applyComplete c o st u).failed = st.failed := by
  unfold applyComplete
  cases crawlPageComplete c u (o u) <;> rfl

/-- No scheduler step, of any worker, writes the failure map. -/
theorem step_failed (c : Crawler) (o : String → FetchOutcome)
    (st : CrawlState) (w : Nat) : (step c o st w).failed = st.failed := by
  unfold step
  cases hw : st.workers.get? w with
  | none => rfl
  | some ws =>
    cases ws with
    | pending => exact runIdle_failed c st w
    | done => rfl
    | fetching u => rw [runIdle_failed, applyComplete_failed]

/-- No schedule, over any worker pool, writes the failure map. -/
theorem runSched_failed (c : Crawler) (o : String → FetchOutcome)
    (sched : List Nat) :
    ∀ st : CrawlState, (runSched c o st sched).failed = st.failed := by
  induction sched with
  | nil => intro st; rfl
  | cons w ws ih =>
    intro st
    have h1 : runSched c o st (w :: ws) = runSched c o (step c o st w) ws := rfl
    rw [h1, ih, step_failed]

/-- Every run — any budget, worker count and schedule — ends with an
empty failure map. -/
theorem crawlPhase_failed (c : Crawler) (urls : List String)
    (o : String → FetchOutcome) (sched : List Nat) :
    (crawlPhase c urls o sched).failed = [] := by
  unfold crawlPhase
  rw [runSched_failed]
  rfl

/-- C1 (amended): for every run — any worker count and schedule — each
URL appears in the failure map at most once (its writers are dead code,
so the map is in fact empty), and no scheduler step ever re-enqueues a
visited URL: every queue entry produced by a step was already queued or
was unvisited before the step (the visited check and the put share one
atomic block).  With a single worker (any budget below 100, for which
the orchestrator spawns exactly one worker) each URL moreover appears
at most once in the run's result list. -/
theorem c1_no_duplicate_visits_amended :
    ∀ (c : Crawler) (urls : List String) (o : String → FetchOutcome)
      (sched : List Nat),
      ((crawlPhase c urls o sched).failed.map Prod.fst).Nodup ∧
      (∀ (st : CrawlState) (w : Nat) (e : Nat × String),
        e ∈ (step c o st w).queue → e ∈ st.queue ∨ e.2 ∉ st.visited) ∧
      (c.maxPages < 100 →
        ((crawlPhase c urls o sched).pages.map (fun p => p.url)).Nodup) := by
  intro c urls o sched
  refine ⟨?_, step_enqueue_unvisited c o, ?_⟩
  · rw [crawlPhase_failed]
    simp
  · intro hm
    obtain ⟨⟨_, hnodup, _, _, _⟩, _, _⟩ := crawlPhase_inv1 c urls o sched hm
    exact hnodup

/-- C1 witness: the amended theorem at a concrete run — empty failure
map and the step property unconditionally, and, discharging the
single-worker hypothesis at budget 10, a duplicate-free result list. -/
theorem c1_no_duplicate_visits_witness :
    smallCrawler.maxPages < 100 ∧
    (((crawlPhase smallCrawler dupSeeds dupOracle [0, 0, 0]).failed.map
        Prod.fst).Nodup ∧
     (∀ (st : CrawlState) (w : Nat) (e : Nat × String),
        e ∈ (step smallCrawler dupOracle st w).queue →
          e ∈ st.queue ∨ e.2 ∉ st.visited) ∧
     ((crawlPhase smallCrawler dupSeeds dupOracle [0, 0, 0]).pages.map
        (fun p => p.url)).Nodup) :=
  ⟨by decide,
   (c1_no_duplicate_visits_amended smallCrawler dupSeeds dupOracle [0, 0, 0]).1,
   (c1_no_duplicate_visits_amended smallCrawler dupSeeds dupOracle [0, 0, 0]).2.1,
   (c1_no_duplicate_visits_amended smallCrawler dupSeeds dupOracle
       [0, 0, 0]).2.2 (by decide)⟩

/-- C2 (amended): with a single worker (budget below 100) the returned
page list never exceeds the page budget; pages and visited URLs grow in
lock step and the loop guard stops claims at the budget. -/
theorem c2_budget_amended :
    ∀ (c : Crawler) (urls : List String) (o : String → FetchOutcome)
      (sched : List Nat),
      c.maxPages < 100 →
      (crawlPhase c urls o sched).pages.length ≤ c.maxPages := by
  intro c urls o sched hm
  obtain ⟨⟨_, _, hlen, _, hbud⟩, _, _⟩ := crawlPhase_inv1 c urls o sched hm
  omega

/-- C2 witness: a concrete single-worker run (budget 10) respects the
budget bound. -/
theorem c2_budget_witness :
    smallCrawler.maxPages < 100 ∧
    (crawlPhase smallCrawler dupSeeds dupOracle [0, 0, 0, 0]).pages.length
      ≤ smallCrawler.maxPages :=
  ⟨by decide,
   c2_budget_amended smallCrawler dupSeeds dupOracle [0, 0, 0, 0] (by decide)⟩

/-- Characters with equal code points are equal. -/
theorem char_toNat_inj {a b : Char} (h : a.toNat = b.toNat) : a = b :=
  Char.ext (UInt32.ext h)

/-- Code point of `Char.ofNat` at a valid code point. -/
theorem char_toNat_ofNat {n : Nat} (h : n.isValidChar) :
    (Char.ofNat n).toNat = n := by
  unfold Char.ofNat
  rw [dif_pos h]
  unfold Char.ofNatAux Char.toNat
  simp [UInt32.toNat, BitVec.toNat_ofNatLt]

/-- Code point of the lowercased character. -/
theorem pyLowerChar_toNat (c : Char) :
    (pyLowerChar c).toNat =
      if 65 ≤ c.toNat ∧ c.toNat ≤ 90 then c.toNat + 32 else c.toNat := by
  unfold pyLowerChar
  by_cases h : 65 ≤ c.toNat ∧ c.toNat ≤ 90
  · rw [if_pos h, if_pos h]
    exact char_toNat_ofNat (Or.inl (by omega))
  · rw [if_neg h, if_neg h]

/-- A character outside the uppercase range is fixed by lowercasing. -/
theorem pyLowerChar_of_not_upper {c : Char}
    (h : ¬(65 ≤ c.toNat ∧ c.toNat ≤ 90)) : pyLowerChar c = c := if_neg h

/-- Lowercasing one character twice is lowercasing it once. -/
theorem pyLowerChar_idem (c : Char) :
    pyLowerChar (pyLowerChar c) = pyLowerChar c := by
  apply char_toNat_inj
  rw [pyLowerChar_toNat, pyLowerChar_toNat]
  split_ifs <;> omega

/-- A character that lowercases to a code point below 97 already was
that character. -/
theorem pyLowerChar_eq_low {c d : Char} (hd : d.toNat < 97)
    (h : pyLowerChar c = d) : c = d := by
  by_cases hc : 65 ≤ c.toNat ∧ c.toNat ≤ 90
  · exfalso
    have h2 := congrArg Char.toNat h
    rw [pyLowerChar_toNat, if_pos hc] at h2
    omega
  · rwa [pyLowerChar_of_not_upper hc] at h

/-- Lowercasing does not change comparison with a symbol below 65. -/
theorem pyLowerChar_beq_low (c d : Char) (hd : d.toNat < 65) :
    (pyLowerChar c == d) = (c == d) := by
  cases hcd : c == d
  · cases hld : pyLowerChar c == d
    · rfl
    · have heq : pyLowerChar c = d := by simpa using hld
      have hcd2 : c = d := pyLowerChar_eq_low (by omega) heq
      rw [hcd2] at hcd
      simp at hcd
  · have hc : c = d := by simpa using hcd
    subst hc
    rw [pyLowerChar_of_not_upper (by omega)]
    simp

/-- Letters characterized by their code points. -/
theorem isAlpha_toNat (c : Char) :
    c.isAlpha = true ↔
      (65 ≤ c.toNat ∧ c.toNat ≤ 90) ∨ (97 ≤ c.toNat ∧ c.toNat ≤ 122) := by
  unfold Char.isAlpha Char.isUpper Char.isLower
  simp only [Bool.or_eq_true, Bool.and_eq_true, decide_eq_true_eq]
  constructor
  · rintro (⟨h1, h2⟩ | ⟨h1, h2⟩)
    · exact Or.inl ⟨h1, h2⟩
    · exact Or.inr ⟨h1, h2⟩
  · intro h
    exact h

/-- Lowercasing keeps a letter a letter. -/
theorem pyLowerChar_isAlpha {c : Char} (h : c.isAlpha = true) :
    (pyLowerChar c).isAlpha = true := by
  rw [isAlpha_toNat] at h ⊢
  rw [pyLowerChar_toNat]
  split_ifs <;> omega

/-- A letter never equals a symbol below code point 65. -/
theorem alpha_ne_char {c d : Char} (hc : c.isAlpha = true)
    (hd : d.toNat < 65) : (c == d) = false := by
  rw [isAlpha_toNat] at hc
  cases hcd : c == d
  · rfl
  · have hceq : c = d := by simpa using hcd
    subst hceq
    omega

/-- When no character satisfies the predicate, nothing splits off. -/
theorem splitOnFirst_none {p : Char → Bool} :
    ∀ {l : List Char}, (∀ c ∈ l, p c = false) →
      splitOnFirst p l = (l, none) := by
  intro l
  induction l with
  | nil => intro _; rfl
  | cons c cs ih =>
    intro h
    have hc : p c = false := h c (List.mem_cons_self _ _)
    simp only [splitOnFirst, hc, Bool.false_eq_true, if_false,
      ih (fun x hx => h x (List.mem_cons_of_mem _ hx))]

/-- Splitting at the first delimiter occurrence. -/
theorem splitOnFirst_at {p : Char → Bool} {d : Char} (hd : p d = true) :
    ∀ (l1 l2 : List Char), (∀ c ∈ l1, p c = false) →
      splitOnFirst p (l1 ++ d :: l2) = (l1, some l2) := by
  intro l1
  induction l1 with
  | nil =>
    intro l2 _
    simp [splitOnFirst, hd]
  | cons c cs ih =>
    intro l2 h
    have hc : p c = false := h c (List.mem_cons_self _ _)
    simp only [List.cons_append, splitOnFirst, hc, Bool.false_eq_true,
      if_false, List.append_eq,
      ih l2 (fun x hx => h x (List.mem_cons_of_mem _ hx))]

/-- `takeWhile`/`dropWhile` split an append exactly at the first
failing character. -/
theorem takeWhile_append_stop {q : Char → Bool} :
    ∀ (l1 l2 : List Char), (∀ c ∈ l1, q c = true) →
      (l2 = [] ∨ q (l2.headD ' ') = false) →
      (l1 ++ l2).takeWhile q = l1 ∧ (l1 ++ l2).dropWhile q = l2 := by
  intro l1
  induction l1 with
  | nil =>
    intro l2 _ h2
    rcases h2 with rfl | h2
    · exact ⟨rfl, rfl⟩
    · cases l2 with
      | nil => exact ⟨rfl, rfl⟩
      | cons a as =>
        simp only [List.headD_cons] at h2
        simp [List.takeWhile_cons, List.dropWhile_cons, h2]
  | cons c cs ih =>
    intro l2 h1 h2
    have hc : q c = true := h1 c (List.mem_cons_self _ _)
    have hr := ih l2 (fun x hx => h1 x (List.mem_cons_of_mem _ hx)) h2
    simp [List.takeWhile_cons, List.dropWhile_cons, hc, hr.1, hr.2]

/-- The stripped string only has characters of the original. -/
theorem rstripSlash_sub : ∀ (l : List Char), ∀ c ∈ rstripSlash l, c ∈ l := by
  intro l
  induction l with
  | nil => intro c h; exact h
  | cons a as ih =>
    intro c h
    simp only [rstripSlash] at h
    by_cases hr : (rstripSlash as).isEmpty = true
    · rw [if_pos hr] at h
      by_cases ha : (a == '/') = true
      · rw [if_pos ha] at h
        cases h
      · rw [if_neg ha] at h
        simp only [List.mem_singleton] at h
        subst h
        exact List.mem_cons_self _ _
    · rw [if_neg hr] at h
      rcases List.mem_cons.mp h with hca | h'
      · rw [hca]
        exact List.mem_cons_self _ _
      · exact List.mem_cons_of_mem _ (ih c h')

/-- Stripping a slash-headed string yields nothing or a slash-headed
string. -/
theorem rstripSlash_head_slash (t : List Char) :
    rstripSlash ('/' :: t) = [] ∨
      ∃ t', rstripSlash ('/' :: t) = '/' :: t' := by
  simp only [rstripSlash]
  by_cases hr : (rstripSlash t).isEmpty = true
  · rw [if_pos hr]
    left
    simp
  · rw [if_neg hr]
    right
    exact ⟨rstripSlash t, rfl⟩

/-- Stripping trailing slashes twice is stripping them once. -/
theorem rstripSlash_idem : ∀ l : List Char,
    rstripSlash (rstripSlash l) = rstripSlash l := by
  intro l
  induction l with
  | nil => rfl
  | cons a as ih =>
    simp only [rstripSlash]
    by_cases hr : (rstripSlash as).isEmpty = true
    · rw [if_pos hr]
      by_cases ha : (a == '/') = true
      · rw [if_pos ha]
        rfl
      · rw [if_neg ha]
        simp [rstripSlash, ha]
    · rw [if_neg hr]
      simp only [rstripSlash]
      rw [ih, if_neg hr]

/-- Lowercasing a string twice is lowercasing it once. -/
theorem pyLower_idem (l : List Char) : pyLower (pyLower l) = pyLower l := by
  induction l with
  | nil => rfl
  | cons c cs ih =>
    simp only [pyLower, List.map_cons] at ih ⊢
    rw [pyLowerChar_idem, ih]

/-- A string of characters fixed by lowercasing is fixed by `pyLower`. -/
theorem pyLower_fixed {l : List Char} (h : ∀ c ∈ l, pyLowerChar c = c) :
    pyLower l = l := by
  induction l with
  | nil => rfl
  | cons c cs ih =>
    simp only [pyLower, List.map_cons] at ih ⊢
    rw [h c (List.mem_cons_self _ _),
      ih (fun x hx => h x (List.mem_cons_of_mem _ hx))]

/-- Lowercasing keeps a printable ASCII character printable ASCII. -/
theorem pyLowerChar_urlChar {c : Char} (h : urlChar c) :
    urlChar (pyLowerChar c) := by
  unfold urlChar at h ⊢
  rw [pyLowerChar_toNat]
  split_ifs <;> omega

/-- Distinct characters compare `==` to `false`. -/
theorem char_beq_false_of_ne {a b : Char} (h : a ≠ b) : (a == b) = false := by
  cases hc : a == b
  · rfl
  · exact absurd (by simpa using hc) h

/-- Characters comparing `==` to `false` are distinct. -/
theorem char_ne_of_beq_false {a b : Char} (h : (a == b) = false) : a ≠ b := by
  intro he
  subst he
  simp at h

/-- Lowercasing does not change netloc-delimiter status. -/
theorem netlocDelim_pyLowerChar (c : Char) :
    netlocDelim (pyLowerChar c) = netlocDelim c := by
  unfold netlocDelim
  rw [pyLowerChar_beq_low c '/' (by decide), pyLowerChar_beq_low c '?' (by decide),
    pyLowerChar_beq_low c '#' (by decide)]

/-- `headD` of a non-empty list is a member. -/
theorem headD_mem {l : List Char} (h : l ≠ []) (d : Char) :
    l.headD d ∈ l := by
  cases l with
  | nil => exact absurd rfl h
  | cons c cs => exact List.mem_cons_self _ _

/-- Splitting at an optional delimited suffix recovers the option. -/
theorem splitOnFirst_optPart {p : Char → Bool} {d : Char} (hd : p d = true)
    (l : List Char) (o : Option (List Char)) (hl : ∀ c ∈ l, p c = false) :
    splitOnFirst p (l ++ optPart d o) = (l, o) := by
  cases o with
  | none =>
    simp only [optPart, List.append_nil]
    exact splitOnFirst_none hl
  | some x => exact splitOnFirst_at hd l x hl

/-- `splitScheme` on a string with an explicit well-formed scheme. -/
theorem splitScheme_at {sc R : List Char} (hsc : sc ≠ [])
    (h0 : (sc.headD ' ').isAlpha = true)
    (hall : ∀ c ∈ sc, schemeChar c = true) :
    splitScheme (sc ++ ':' :: R) = (sc.map pyLowerChar, R) := by
  have hnc : ∀ c ∈ sc, (c == ':') = false := by
    intro c hc
    cases hb : c == ':'
    · rfl
    · have hcb : c = ':' := by simpa using hb
      subst hcb
      exact absurd (hall ':' hc) (by decide)
  have hsp := splitOnFirst_at (p := (· == ':')) (d := ':') (by decide) sc R hnc
  have he : sc.isEmpty = false := by
    cases sc
    · exact absurd rfl hsc
    · rfl
  have ha : sc.all schemeChar = true := by
    rw [List.all_eq_true]
    exact hall
  have h0' : (sc.head?.getD ' ').isAlpha = true := by
    cases sc with
    | nil => exact absurd rfl hsc
    | cons c t => simpa using h0
  simp [splitScheme, hsp, he, h0, h0', ha]

/-- `splitNetloc` on `//netloc` followed by a delimiter-headed rest. -/
theorem splitNetloc_at {nl L2 : List Char}
    (hnl : ∀ c ∈ nl, netlocDelim c = false)
    (hL2 : L2 = [] ∨ netlocDelim (L2.headD ' ') = true) :
    splitNetloc ('/' :: '/' :: (nl ++ L2)) = (nl, L2) := by
  have hsw : startsWithL ['/', '/'] ('/' :: '/' :: (nl ++ L2)) = true := by
    simp [startsWithL]
  have ht := takeWhile_append_stop (q := fun c => !netlocDelim c) nl L2
    (fun c hc => by simp [hnl c hc])
    (by rcases hL2 with h | h
        · exact Or.inl h
        · refine Or.inr ?_
          show (!netlocDelim (L2.headD ' ')) = false
          rw [h]
          rfl)
  simp [splitNetloc, hsw, ht.1, ht.2]

/-- `pyUrlparse` on an absolute URL assembled from well-formed
components (path free of `;`, so no params are split off). -/
theorem pyUrlparse_render (sc nl pa : List Char) (qo fo : Option (List Char))
    (hsc : sc ≠ []) (h0 : (sc.headD ' ').isAlpha = true)
    (hall : ∀ c ∈ sc, schemeChar c = true)
    (hnl : ∀ c ∈ nl, netlocDelim c = false)
    (hpa : pa = [] ∨ pa.headD ' ' = '/')
    (hpaf : ∀ c ∈ pa, (c == '?') = false ∧ (c == '#') = false ∧ (c == ';') = false)
    (hqf : ∀ c ∈ qo.getD [], (c == '#') = false) :
    pyUrlparse (sc ++ ':' :: '/' :: '/' :: (nl ++ (pa ++ (optPart '?' qo ++ optPart '#' fo)))) =
      ⟨sc.map pyLowerChar, nl, pa, [], qo.getD [], fo.getD []⟩ := by
  have h1 := splitScheme_at
    (R := '/' :: '/' :: (nl ++ (pa ++ (optPart '?' qo ++ optPart '#' fo))))
    hsc h0 hall
  have hL2 : (pa ++ (optPart '?' qo ++ optPart '#' fo)) = [] ∨
      netlocDelim ((pa ++ (optPart '?' qo ++ optPart '#' fo)).headD ' ') = true := by
    rcases hpa with hpaE | hpaH
    · subst hpaE
      cases qo with
      | some q =>
        right
        simp only [optPart, List.nil_append, List.cons_append, List.headD_cons]
        decide
      | none =>
        cases fo with
        | some f =>
          right
          simp only [optPart, List.nil_append, List.cons_append, List.headD_cons]
          decide
        | none =>
          left
          simp [optPart]
    · cases pa with
      | nil =>
        simp only [List.headD_nil] at hpaH
        exact absurd hpaH (by decide)
      | cons c t =>
        simp only [List.headD_cons] at hpaH
        subst hpaH
        right
        simp only [List.cons_append, List.headD_cons]
        decide
  have h2 := splitNetloc_at hnl hL2
  have hq2 : ∀ c ∈ optPart '?' qo, (c == '#') = false := by
    cases qo with
    | none => intro c hc; simp [optPart] at hc
    | some q =>
      intro c hc
      simp only [optPart, List.mem_cons] at hc
      rcases hc with rfl | hc
      · decide
      · exact hqf c hc
  have h3 : splitOnFirst (· == '#') (pa ++ (optPart '?' qo ++ optPart '#' fo)) =
      (pa ++ optPart '?' qo, fo) := by
    rw [← List.append_assoc]
    refine splitOnFirst_optPart (by decide) _ fo ?_
    intro c hc
    rcases List.mem_append.mp hc with hc | hc
    · exact (hpaf c hc).2.1
    · exact hq2 c hc
  have h4 : splitOnFirst (· == '?') (pa ++ optPart '?' qo) = (pa, qo) :=
    splitOnFirst_optPart (by decide) pa qo (fun c hc => (hpaf c hc).1)
  have h5 : pa.contains ';' = false := by
    cases hc : pa.contains ';'
    · rfl
    · exfalso
      have h6 : pa.elem ';' = true := hc
      rw [List.elem_eq_mem] at h6
      have h7 : ';' ∈ pa := of_decide_eq_true h6
      have h8 := (hpaf ';' h7).2.2
      simp at h8
  simp only [pyUrlparse, h1, h2, h3, h4, h5, Bool.and_false,
    Bool.false_eq_true, if_false]

/-- Lowercasing preserves non-emptiness. -/
theorem pyLower_ne_nil {l : List Char} (h : l ≠ []) : pyLower l ≠ [] := by
  cases l with
  | nil => exact absurd rfl h
  | cons c t => simp [pyLower]

/-- `pyUrlunparse` on parts with a netloc, a slash-headed path, no
params and no fragment. -/
theorem pyUrlunparse_abs (sc nl pa q : List Char)
    (hsc : sc ≠ []) (hnl : nl ≠ []) (hpane : pa ≠ [])
    (hpah : pa.headD ' ' = '/') :
    pyUrlunparse ⟨sc, nl, pa, [], q, []⟩ =
      sc ++ ':' :: '/' :: '/' ::
        (nl ++ (pa ++ optPart '?' (if q.isEmpty then none else some q))) := by
  have hnl2 : nl.isEmpty = false := by
    cases nl
    · exact absurd rfl hnl
    · rfl
  have hsc2 : sc.isEmpty = false := by
    cases sc
    · exact absurd rfl hsc
    · rfl
  obtain ⟨c, t, rfl⟩ : ∃ c t, pa = c :: t := by
    cases pa with
    | nil => exact absurd rfl hpane
    | cons c t => exact ⟨c, t, rfl⟩
  simp only [List.headD_cons] at hpah
  subst hpah
  cases q with
  | nil => simp [pyUrlunparse, hnl2, hsc2, optPart]
  | cons a as =>
    simp [pyUrlunparse, hnl2, hsc2, optPart, List.append_assoc]

/-- Lowercasing a rendered URL lowercases each component (the
delimiters are fixed points). -/
theorem pyLower_render (u : AbsUrl) :
    pyLower u.render =
      pyLower u.scheme ++ ':' :: '/' :: '/' ::
        (pyLower u.netloc ++ (pyLower u.path ++
          (optPart '?' (u.query.map pyLower) ++
           optPart '#' (u.fragment.map pyLower)))) := by
  have h1 : pyLowerChar ':' = ':' := by decide
  have h2 : pyLowerChar '/' = '/' := by decide
  have h3 : pyLowerChar '?' = '?' := by decide
  have h4 : pyLowerChar '#' = '#' := by decide
  cases hq : u.query <;> cases hf : u.fragment <;>
    simp [AbsUrl.render, pyLower, optPart, hq, hf, h1, h2, h3, h4,
      List.map_append, List.append_assoc]

/-- Lowercasing preserves "empty or slash-headed". -/
theorem pyLower_path_head {pa : List Char}
    (h : pa = [] ∨ pa.headD ' ' = '/') :
    pyLower pa = [] ∨ (pyLower pa).headD ' ' = '/' := by
  rcases h with h | h
  · left
    rw [h]
    rfl
  · cases pa with
    | nil => left; rfl
    | cons c t =>
      right
      simp only [List.headD_cons] at h
      subst h
      simp only [pyLower, List.map_cons, List.headD_cons]
      decide

/-- The normalized path (stripped, with bare root restored) is
non-empty and slash-headed. -/
theorem normPath_head {pa : List Char}
    (h : pa = [] ∨ pa.headD ' ' = '/') :
    (if (rstripSlash pa).isEmpty then ['/'] else rstripSlash pa).headD ' ' = '/' ∧
      (if (rstripSlash pa).isEmpty then ['/'] else rstripSlash pa) ≠ [] := by
  by_cases hP : (rstripSlash pa).isEmpty = true
  · rw [if_pos hP]
    exact ⟨rfl, by simp⟩
  · rw [if_neg hP]
    constructor
    · rcases h with h | h
      · subst h
        exact absurd rfl hP
      · cases pa with
        | nil => exact absurd rfl hP
        | cons c t =>
          simp only [List.headD_cons] at h
          subst h
          rcases rstripSlash_head_slash t with h9 | ⟨t2, h9⟩
          · rw [h9] at hP
            exact absurd rfl hP
          · rw [h9]
            rfl
    · intro hcontra
      rw [hcontra] at hP
      exact hP rfl

/-- On a well-formed absolute URL, `normalizeUrl` acts componentwise as
`normAbs`: lowercase everything, strip trailing slashes (bare root
becomes `/`), drop the fragment, keep a non-empty query. -/
theorem normalizeUrl_render (u : AbsUrl) (h : u.WF) :
    normalizeUrl (String.mk u.render) = String.mk (normAbs u).render := by
  obtain ⟨hsc, hsca, hnl, hnlc, hpa, hpac, hqc⟩ := h
  have hsc1 : pyLower u.scheme ≠ [] := pyLower_ne_nil hsc
  have hnlne : pyLower u.netloc ≠ [] := pyLower_ne_nil hnl
  have h0 : ((pyLower u.scheme).headD ' ').isAlpha = true := by
    cases hs : u.scheme with
    | nil => exact absurd hs hsc
    | cons c t =>
      simp only [pyLower, List.map_cons, List.headD_cons]
      exact pyLowerChar_isAlpha (hsca c (by rw [hs]; exact List.mem_cons_self _ _))
  have hall : ∀ x ∈ pyLower u.scheme, schemeChar x = true := by
    intro x hx
    simp only [pyLower, List.mem_map] at hx
    obtain ⟨a, ha, rfl⟩ := hx
    have ha2 := pyLowerChar_isAlpha (hsca a ha)
    simp [schemeChar, ha2]
  have hnl1 : ∀ x ∈ pyLower u.netloc, netlocDelim x = false := by
    intro x hx
    simp only [pyLower, List.mem_map] at hx
    obtain ⟨a, ha, rfl⟩ := hx
    rw [netlocDelim_pyLowerChar]
    exact (hnlc a ha).2
  have hpa1 := pyLower_path_head hpa
  have hpaf1 : ∀ x ∈ pyLower u.path,
      (x == '?') = false ∧ (x == '#') = false ∧ (x == ';') = false := by
    intro x hx
    simp only [pyLower, List.mem_map] at hx
    obtain ⟨a, ha, rfl⟩ := hx
    obtain ⟨-, ha1, ha2, ha3⟩ := hpac a ha
    refine ⟨?_, ?_, ?_⟩
    · rw [pyLowerChar_beq_low a '?' (by decide)]
      exact char_beq_false_of_ne ha1
    · rw [pyLowerChar_beq_low a '#' (by decide)]
      exact char_beq_false_of_ne ha2
    · rw [pyLowerChar_beq_low a ';' (by decide)]
      exact char_beq_false_of_ne ha3
  have hq1 : ∀ x ∈ (u.query.map pyLower).getD [], (x == '#') = false := by
    cases hqo : u.query with
    | none => intro x hx; simp at hx
    | some qs =>
      intro x hx
      have hx2 : x ∈ pyLower qs := hx
      simp only [pyLower, List.mem_map] at hx2
      obtain ⟨a, ha, rfl⟩ := hx2
      rw [pyLowerChar_beq_low a '#' (by decide)]
      refine char_beq_false_of_ne ?_
      exact (hqc a (by rw [hqo]; exact ha)).2
  have hmap : (pyLower u.scheme).map pyLowerChar = pyLower u.scheme :=
    pyLower_idem u.scheme
  have hQg : (u.query.map pyLower).getD [] = pyLower (u.query.getD []) := by
    cases u.query <;> rfl
  have hparse := pyUrlparse_render (pyLower u.scheme) (pyLower u.netloc)
    (pyLower u.path) (u.query.map pyLower) (u.fragment.map pyLower)
    hsc1 h0 hall hnl1 hpa1 hpaf1 hq1
  rw [hmap, hQg] at hparse
  have hph := normPath_head hpa1
  simp only [normalizeUrl]
  rw [pyLower_render, hparse]
  dsimp only
  rw [pyUrlunparse_abs _ _ _ _ hsc1 hnlne hph.2 hph.1]
  simp [normAbs, AbsUrl.render, optPart, List.append_assoc]

/-- `normAbs` preserves well-formedness. -/
theorem normAbs_WF {u : AbsUrl} (h : u.WF) : (normAbs u).WF := by
  obtain ⟨hsc, hsca, hnl, hnlc, hpa, hpac, hqc⟩ := h
  have hph := normPath_head (pyLower_path_head hpa)
  refine ⟨pyLower_ne_nil hsc, ?_, pyLower_ne_nil hnl, ?_, ?_, ?_, ?_⟩
  · intro c hc
    have hc2 : c ∈ pyLower u.scheme := hc
    simp only [pyLower, List.mem_map] at hc2
    obtain ⟨a, ha, rfl⟩ := hc2
    exact pyLowerChar_isAlpha (hsca a ha)
  · intro c hc
    have hc2 : c ∈ pyLower u.netloc := hc
    simp only [pyLower, List.mem_map] at hc2
    obtain ⟨a, ha, rfl⟩ := hc2
    refine ⟨pyLowerChar_urlChar (hnlc a ha).1, ?_⟩
    rw [netlocDelim_pyLowerChar]
    exact (hnlc a ha).2
  · exact Or.inr hph.1
  · intro c hc
    have hc2 : c ∈ (if (rstripSlash (pyLower u.path)).isEmpty then (['/'] : List Char)
        else rstripSlash (pyLower u.path)) := hc
    by_cases hP : (rstripSlash (pyLower u.path)).isEmpty = true
    · rw [if_pos hP] at hc2
      simp only [List.mem_singleton] at hc2
      subst hc2
      exact ⟨⟨by decide, by decide⟩, by decide, by decide, by decide⟩
    · rw [if_neg hP] at hc2
      have hc3 := rstripSlash_sub _ c hc2
      simp only [pyLower, List.mem_map] at hc3
      obtain ⟨a, ha, rfl⟩ := hc3
      obtain ⟨hu, h1, h2, h3⟩ := hpac a ha
      refine ⟨pyLowerChar_urlChar hu, ?_, ?_, ?_⟩
      · refine char_ne_of_beq_false ?_
        rw [pyLowerChar_beq_low a '?' (by decide)]
        exact char_beq_false_of_ne h1
      · refine char_ne_of_beq_false ?_
        rw [pyLowerChar_beq_low a '#' (by decide)]
        exact char_beq_false_of_ne h2
      · refine char_ne_of_beq_false ?_
        rw [pyLowerChar_beq_low a ';' (by decide)]
        exact char_beq_false_of_ne h3
  · intro c hc
    have hc2 : c ∈ (if (pyLower (u.query.getD [])).isEmpty
        then (none : Option (List Char))
        else some (pyLower (u.query.getD []))).getD [] := hc
    by_cases hQ : (pyLower (u.query.getD [])).isEmpty = true
    · rw [if_pos hQ] at hc2
      simp at hc2
    · rw [if_neg hQ] at hc2
      have hc3 : c ∈ pyLower (u.query.getD []) := hc2
      simp only [pyLower, List.mem_map] at hc3
      obtain ⟨a, ha, rfl⟩ := hc3
      obtain ⟨hu, h1⟩ := hqc a ha
      refine ⟨pyLowerChar_urlChar hu, ?_⟩
      refine char_ne_of_beq_false ?_
      rw [pyLowerChar_beq_low a '#' (by decide)]
      exact char_beq_false_of_ne h1

/-- `normAbs` is idempotent on components. -/
theorem normAbs_idem (u : AbsUrl) : normAbs (normAbs u) = normAbs u := by
  have hfix : ∀ c ∈ rstripSlash (pyLower u.path), pyLowerChar c = c := by
    intro c hc
    have hc2 := rstripSlash_sub _ c hc
    simp only [pyLower, List.mem_map] at hc2
    obtain ⟨a, ha, rfl⟩ := hc2
    exact pyLowerChar_idem a
  simp only [normAbs, AbsUrl.mk.injEq]
  refine ⟨pyLower_idem _, pyLower_idem _, ?_, ?_, trivial⟩
  · by_cases hP : (rstripSlash (pyLower u.path)).isEmpty = true
    · rw [if_pos hP]
      decide
    · rw [if_neg hP]
      rw [pyLower_fixed hfix, rstripSlash_idem]
      rw [if_neg hP]
  · by_cases hQ : (pyLower (u.query.getD [])).isEmpty = true
    · rw [if_pos hQ]
      rfl
    · rw [if_neg hQ]
      simp only [Option.getD_some]
      rw [pyLower_idem]
      rw [if_neg hQ]

/-- C9 (counterexample): `normalizeUrl` is not idempotent on every
syntactically valid absolute URL.  Stripping the trailing slash of
`http://h/p/;x/` leaves `http://h/p/;x`, whose re-parse finds the `;`
in the (new) last path segment and splits it off as params, so a second
normalization yields the different string `http://h/p;x`. -/
theorem c9_normalize_idempotent_cx :
    normalizeUrl "http://h/p/;x/" = "http://h/p/;x" ∧
      normalizeUrl (normalizeUrl "http://h/p/;x/") = "http://h/p;x" ∧
      normalizeUrl (normalizeUrl "http://h/p/;x/") ≠
        normalizeUrl "http://h/p/;x/" :=
  ⟨by decide, by decide, by decide⟩

/-- C9 (amended): on well-formed absolute URLs whose path contains no
`;`, normalization is idempotent: lowercasing is idempotent, trailing
slashes are stripped once and for all, the fragment is gone after one
pass, and no params can be split off on the second parse. -/
theorem c9_normalize_idempotent_amended (u : AbsUrl) (h : u.WF) :
    normalizeUrl (normalizeUrl (String.mk u.render)) =
      normalizeUrl (String.mk u.render) := by
  rw [normalizeUrl_render u h, normalizeUrl_render (normAbs u) (normAbs_WF h),
    normAbs_idem]

/-- Witness for C9: the amended idempotence theorem applied to the
concrete well-formed URL `HTTP://Example.COM/About/?Q=1#frag`. -/
theorem c9_normalize_idempotent_witness :
    exGoodUrl.WF ∧
      normalizeUrl (normalizeUrl (String.mk exGoodUrl.render)) =
        normalizeUrl (String.mk exGoodUrl.render) :=
  ⟨by unfold AbsUrl.WF urlChar; decide,
   c9_normalize_idempotent_amended exGoodUrl (by unfold AbsUrl.WF urlChar; decide)⟩
